import Mathlib

set_option linter.unusedVariables false

/-!
Verification of the intrusive red-black tree in `RBTree.cc` (Ceph).

The C code manipulates nodes through parent pointers and a packed
`__rb_parent_color` word, walking from a node towards the root inside
`__rb_insert` / `__rb_erase` / `__rb_erase_color` loops.  We embed this
shallowly:

* a node's subtree is an inductive `Tree`;
* the chain from a node up to the root — exactly the information the C
  loops read through parent pointers (parent's color, payload, which side
  the current node hangs on, and the sibling subtree) — is a list of
  `Frame`s, innermost frame first;
* each iteration of a C loop becomes one step of a structurally recursive
  function on that list, with the case split of the step functions mirroring
  the `Case 1` / `Case 2` / `Case 3` / `Case 4` arms of the source;
* the packed parent-and-color word is modelled separately, on `Nat`, for the
  claims about `rb_set_parent_color` / `rb_red_parent`.
-/

set_option maxHeartbeats 1000000

namespace RBTreeModel

/-- Color of a node: `RB_RED = 0`, `RB_BLACK = 1` in the source. -/
inductive Color where
  | red
  | black
deriving DecidableEq, Repr

/-- Numeric value of a color, as stored in the low bit of
`__rb_parent_color` (`#define RB_RED 0`, `#define RB_BLACK 1`). -/
def Color.toBit : Color → Nat
  | .red => 0
  | .black => 1

/-- A binary tree with a color and payload at every internal node; `nil`
is an absent child (a "leaf" in red-black terminology, always black). -/
inductive Tree (α : Type) where
  | nil
  | node (c : Color) (l : Tree α) (x : α) (r : Tree α)
deriving DecidableEq, Repr

/-- Which child slot of its parent a node occupies. -/
inductive Dir where
  | left
  | right
deriving DecidableEq, Repr

/-- One step of the parent chain of a node: the information the C code
reaches through `__rb_parent_color` and the parent's child pointers.
`d` is the side on which the current subtree hangs, `c`/`x` are the
parent's color and payload, `sib` is the parent's other child. -/
structure Frame (α : Type) where
  d : Dir
  c : Color
  x : α
  sib : Tree α
deriving DecidableEq, Repr

variable {α : Type}

/-- Rebuild the parent node from a frame and the subtree in its hole. -/
def assemble (f : Frame α) (t : Tree α) : Tree α :=
  match f.d with
  | .left => .node f.c t f.x f.sib
  | .right => .node f.c f.sib f.x t

/-- Rebuild the whole tree from a subtree and its parent chain
(innermost frame first). -/
def plug (t : Tree α) : List (Frame α) → Tree α
  | [] => t
  | f :: fs => plug (assemble f t) fs

/-- Recolor the root of a subtree black, keeping everything else.  This is
what `rb_set_parent_color(n, p, RB_BLACK)` does to the node's color (the
parent part is implicit in the tree representation). -/
def paintBlack : Tree α → Tree α
  | .nil => .nil
  | .node _ l x r => .node .black l x r

/-- Give the root of a subtree a prescribed color; models a child
inheriting the erased node's `__rb_parent_color` in `__rb_erase`. -/
def paintTop (c : Color) : Tree α → Tree α
  | .nil => .nil
  | .node _ l x r => .node c l x r

/-- True iff the root of the subtree is a red node (`rb_is_red`). -/
def isRedRoot : Tree α → Bool
  | .node .red _ _ _ => true
  | _ => false

/-- True iff the subtree is absent or its root is black: the test
`!tmp || rb_is_black(tmp)` of the source. -/
def nilOrBlack : Tree α → Bool
  | .nil => true
  | .node c _ _ _ => c = .black

/-- In-order sequence of payloads. -/
def inorder : Tree α → List α
  | .nil => []
  | .node _ l x r => inorder l ++ x :: inorder r

/-- Invariant 2 of the source's header comment: the root is black
(vacuously true for the empty tree). -/
def rootBlack : Tree α → Bool
  | .nil => true
  | .node c _ _ _ => c = .black

/-- Invariant 4 of the source's header comment: no red node has a red
child. -/
def noRedRed : Tree α → Bool
  | .nil => true
  | .node .red l _ r => !isRedRoot l && !isRedRoot r && noRedRed l && noRedRed r
  | .node .black l _ r => noRedRed l && noRedRed r

/-- Black height of a subtree: `some n` when every path from the root to
an absent child passes `n` black nodes (invariant 5 of the header
comment), `none` when the counts disagree. -/
def blackH : Tree α → Option Nat
  | .nil => some 0
  | .node c l _ r =>
    match blackH l, blackH r with
    | some m, some k =>
      if m = k then some (m + (if c = .black then 1 else 0)) else none
    | _, _ => none

/-- The three structural red-black invariants together: black root, no
two consecutive reds, uniform black count on every root-to-absent-child
path. -/
def validRB (t : Tree α) : Bool :=
  rootBlack t && noRedRed t && (blackH t).isSome

/-! ## The packed parent-and-color word

Pointers are machine words; a parent pointer is at least 4-aligned, so its
two low bits are free and the low bit stores the color.  We model words as
`Nat` (the C operations below only set or clear the two low bits, so no
wrap-around is involved). -/

/-- `__rb_parent(pc) = (RBNode*)(pc & ~3)`: clearing the two low bits of a
word is subtracting its residue mod 4. -/
def rb_parent_w (pc : Nat) : Nat := pc - pc % 4

/-- `__rb_color(pc) = pc & 1`. -/
def rb_color_w (pc : Nat) : Nat := pc % 2

/-- `rb_set_parent_color(rb, p, color)` stores `(unsigned long)p | color`;
for a 4-aligned `p` and `color < 4` the bitwise or is plain addition. -/
def rb_set_parent_color_w (p color : Nat) : Nat := p + color

/-- `rb_set_parent(rb, p)` stores `rb_color(rb) | (unsigned long)p`:
the old color bit is kept and the parent bits are replaced. -/
def rb_set_parent_w (pc p : Nat) : Nat := pc % 2 + p

/-- `rb_set_black(rb)` does `__rb_parent_color |= RB_BLACK`: setting the
low bit of a word. -/
def rb_set_black_w (pc : Nat) : Nat := pc - pc % 2 + 1

/-- `rb_red_parent(red)` returns the whole word `red->__rb_parent_color`
as a pointer, with no masking: correct only while the node is red. -/
def rb_red_parent_w (pc : Nat) : Nat := pc

/-! ## Insertion fixup (`__rb_insert`)

One iteration of the `while (true)` loop either breaks (producing the
subtree that replaces the grandparent's slot) or continues at the
grandparent (Case 1).  The current node is the subtree `t`; `p` and `g`
are the frames of its parent and grandparent. -/

/-- Result of one loop iteration: `done t'` breaks out of the loop with
`t'` to be plugged into the remaining path, `up t'` re-enters the loop at
the grandparent with current subtree `t'`. -/
inductive Step (α : Type) where
  | done (t : Tree α)
  | up (t : Tree α)
deriving DecidableEq, Repr

/-- The body of `__rb_insert`'s loop after the two break tests, for a red
parent `p` with grandparent `g`.  The outer `match` on `g.d` is the
source's `tmp = gparent->rb_right; if (parent != tmp)` split into the two
mirror halves; inside each half the arms are the source's Case 1 (red
uncle: color flips, recurse at the grandparent), Case 2 (inside
grandchild: rotate at the parent, falling through) and Case 3 (rotate at
the grandparent via `__rb_rotate_set_parents`, which hands the
grandparent's color to the parent and colors the grandparent red). -/
def insertStep (t : Tree α) (p g : Frame α) : Step α :=
  match g.d with
  | .left =>
    /- parent == gparent->rb_left; uncle = gparent->rb_right = g.sib -/
    match g.sib with
    | .node .red ul ux ur =>
      /- Case 1 - color flips: uncle and parent black, gparent red -/
      .up (.node .red (assemble { p with c := .black } t) g.x (.node .black ul ux ur))
    | u =>
      match p.d, t with
      | .right, .node _ tl tx tr =>
        /- Case 2 - left rotate at parent, then Case 3 - right rotate at
        gparent.  `node->rb_left` is handed to the parent and painted
        black, `parent->rb_right` (after the first rotation the old
        `node->rb_right`) is handed to the gparent and painted black,
        the gparent turns red and the new top inherits its color. -/
        .done (.node g.c (.node .red p.sib p.x (paintBlack tl)) tx
                 (.node .red (paintBlack tr) g.x u))
      | .left, t' =>
        /- Case 3 - right rotate at gparent -/
        .done (.node g.c t' p.x (.node .red (paintBlack p.sib) g.x u))
      | .right, .nil =>
        /- the current node always exists; unreachable -/
        .done (assemble g (assemble p t))
  | .right =>
    /- parent == gparent->rb_right; uncle = gparent->rb_left = g.sib -/
    match g.sib with
    | .node .red ul ux ur =>
      /- Case 1 - color flips -/
      .up (.node .red (.node .black ul ux ur) g.x (assemble { p with c := .black } t))
    | u =>
      match p.d, t with
      | .left, .node _ tl tx tr =>
        /- Case 2 - right rotate at parent, then Case 3 - left rotate at
        gparent -/
        .done (.node g.c (.node .red u g.x (paintBlack tl)) tx
                 (.node .red (paintBlack tr) p.x p.sib))
      | .right, t' =>
        /- Case 3 - left rotate at gparent -/
        .done (.node g.c (.node .red u g.x (paintBlack p.sib)) p.x t')
      | .left, .nil =>
        /- unreachable -/
        .done (assemble g (assemble p t))

/-- The `__rb_insert` loop.  An empty path is a null parent: the node is
made the black root.  A black parent breaks immediately (the tree as it
stands is plugged back together).  A red parent with no grandparent is a
red root: impossible on a valid tree, and the C code would dereference a
null grandparent there; the model leaves the tree unchanged.  Otherwise
one `insertStep` runs and Case 1 re-enters the loop two frames higher. -/
def insertFixupGo : Tree α → List (Frame α) → Tree α
  | t, [] => paintBlack t
  | t, p :: rest =>
    if p.c = .black then plug t (p :: rest)
    else
      match rest with
      | [] => plug t [p]
      | g :: rest' =>
        match insertStep t p g with
        | .done t' => plug t' rest'
        | .up t' => insertFixupGo t' rest'

/-- `rb_link_node` followed by `RBTree::insert_color`: attach a fresh red
leaf with payload `x` in the (empty) slot described by `path` and run the
insertion fixup. -/
def rb_insert_at (x : α) (path : List (Frame α)) : Tree α :=
  insertFixupGo (.node .red .nil x .nil) path

/-- BST descent of the caller: walk down comparing keys, recording the
parent chain, and return the insertion path for key `k`. -/
def bstZip (k : Nat) : Tree Nat → List (Frame Nat) → List (Frame Nat)
  | .nil, acc => acc
  | .node c l x r, acc =>
    if k < x then bstZip k l (⟨.left, c, x, r⟩ :: acc)
    else bstZip k r (⟨.right, c, x, l⟩ :: acc)

/-- Insert a key: BST descent, red-leaf linkage, insertion fixup. -/
def insertKey (t : Tree Nat) (k : Nat) : Tree Nat :=
  rb_insert_at k (bstZip k t [])

/-- Insert a list of keys left to right into the empty tree. -/
def insertSeq (ks : List Nat) : Tree Nat :=
  ks.foldl insertKey .nil

/-! ## Erase: unlink phase (`__rb_erase`) -/

/-- The `do { parent = successor; successor = tmp; tmp = tmp->rb_left; }
while (tmp)` descent of `__rb_erase` Case 3: walk to the leftmost node,
pushing a `.left` frame for every node passed.  Arguments are the fields
of the current node (color, left child, payload, right child) and the
frames accumulated so far; the result is the successor's parent chain
inside `node->rb_right` together with the successor's color, payload and
right child (`child2`). -/
def leftmostZip : Color → Tree α → α → Tree α → List (Frame α) →
    List (Frame α) × Color × α × Tree α
  | c, .nil, x, r, acc => (acc, c, x, r)
  | c, .node cl ll xl rl, x, r, acc => leftmostZip cl ll xl rl (⟨.left, c, x, r⟩ :: acc)

/-- The unlink phase of `__rb_erase` on the node `(c, l, x, r)` sitting at
`path`.  Returns the tree as the unlink leaves it together with the
rebalance signal: `some π` is the non-null `rebalance` pointer, given here
as the parent chain of the now-empty deficient slot (the C code passes the
parent of that slot; the spec notes the `(parent, side)` form as the
equivalent convention).  The four arms are the source's cases: no left
child, no right child (the lone child, necessarily red, inherits the
erased node's parent-and-color, bypassing the fixup), successor is the
right child itself (Case 2), successor leftmost under the right child
(Case 3).  A black erased node whose replacement is absent yields the
signal unless its parent is null. -/
def rb_erase_unlink (c : Color) (l : Tree α) (x : α) (r : Tree α)
    (path : List (Frame α)) : Tree α × Option (List (Frame α)) :=
  match l, r with
  | .nil, .nil =>
    /- Case 1 with no child: rebalance = __rb_is_black(pc) ? parent : NULL,
    and the parent is null exactly when the path is empty -/
    (plug .nil path,
     match c, path with
     | .black, _ :: _ => some path
     | _, _ => none)
  | .nil, .node rc rl rx rr =>
    /- Case 1: the lone right child inherits pc -/
    (plug (paintTop c (.node rc rl rx rr)) path, none)
  | .node lc ll lx lr, .nil =>
    /- still Case 1, the child is node->rb_left -/
    (plug (paintTop c (.node lc ll lx lr)) path, none)
  | .node lc ll lx lr, .node rc rl rx rr =>
    let l' : Tree α := .node lc ll lx lr
    match rl with
    | .nil =>
      /- Case 2: node's successor is its right child -/
      match rr with
      | .nil =>
        (plug (.node c l' rx .nil) path,
         if rc = .black then some (⟨.right, c, rx, l'⟩ :: path) else none)
      | .node c2c c2l c2x c2r =>
        (plug (.node c l' rx (paintBlack (.node c2c c2l c2x c2r))) path, none)
    | .node c0 l0 x0 r0 =>
      /- Case 3: successor is leftmost under node's right child subtree -/
      match leftmostZip c0 l0 x0 r0 [⟨.left, rc, rx, rr⟩] with
      | (ipath, sc, sx, .nil) =>
        (plug (.node c l' sx (plug .nil ipath)) path,
         if sc = .black then some (ipath ++ ⟨.right, c, sx, l'⟩ :: path) else none)
      | (ipath, _, sx, .node c2c c2l c2x c2r) =>
        (plug (.node c l' sx (plug (paintBlack (.node c2c c2l c2x c2r)) ipath)) path,
         none)

/-! ## Erase: color fixup (`__rb_erase_color`) -/

/-- Cases 2, 3 and 4 of one `__rb_erase_color` iteration for a
left-deficient parent (`node == parent->rb_left`), entered with the
sibling already known non-null.  `t` is the deficient subtree, `pc`/`px`
the parent's color and payload, and the final argument the sibling.  The
first arm is Case 4 (distal child red: left rotate at the parent and
color flips — the sibling inherits the parent's color, parent and distal
child become black), the second Case 3 falling into Case 4 (right rotate
at the sibling first), and the last Case 2 (recolor the sibling red; a
red parent absorbs the deficit, otherwise it moves up). -/
def eraseCasesL (t : Tree α) (pc : Color) (px : α) : Tree α → Step α
  | .node _ sl sx (.node .red drl drx drr) =>
    /- Case 4 -/
    .done (.node pc (.node .black t px sl) sx (.node .black drl drx drr))
  | .node _ (.node .red s2l s2x s2r) sx sr =>
    /- Case 3 then Case 4 -/
    .done (.node pc (.node .black t px s2l) s2x (.node .black (paintBlack s2r) sx sr))
  | .node _ sl sx sr =>
    /- Case 2 - sibling color flip -/
    match pc with
    | .red => .done (.node .black t px (.node .red sl sx sr))
    | .black => .up (.node .black t px (.node .red sl sx sr))
  | .nil =>
    /- sibling of a deficient child is never absent; the C code would
    have dereferenced it already -/
    .done (.node pc t px .nil)

/-- Mirror of `eraseCasesL` for a right-deficient parent. -/
def eraseCasesR (t : Tree α) (pc : Color) (px : α) : Tree α → Step α
  | .node _ (.node .red dll dlx dlr) sx sr =>
    /- Case 4 -/
    .done (.node pc (.node .black dll dlx dlr) sx (.node .black sr px t))
  | .node _ sl sx (.node .red s2l s2x s2r) =>
    /- Case 3 then Case 4 -/
    .done (.node pc (.node .black sl sx (paintBlack s2l)) s2x (.node .black s2r px t))
  | .node _ sl sx sr =>
    /- Case 2 - sibling color flip -/
    match pc with
    | .red => .done (.node .black (.node .red sl sx sr) px t)
    | .black => .up (.node .black (.node .red sl sx sr) px t)
  | .nil => .done (.node pc .nil px t)

/-- One iteration of `__rb_erase_color`'s loop at the parent frame `fr`
of the deficient subtree `t`.  A red sibling is Case 1: rotate at the
parent (the sibling takes the parent's color, the parent turns red, the
sibling's inner child — painted black by `rb_set_parent_color` without a
null check — becomes the new sibling) and fall through to the remaining
cases inside the same iteration; with the parent now red those always
break, and their result is wrapped back under the risen sibling. -/
def eraseStep (t : Tree α) (fr : Frame α) : Step α :=
  match fr.d with
  | .left =>
    match fr.sib with
    | .node .red sl sx sr =>
      /- Case 1 - left rotate at parent -/
      match eraseCasesL t .red fr.x (paintBlack sl) with
      | .done t' => .done (.node fr.c t' sx sr)
      | .up t' => .done (.node fr.c t' sx sr)
    | s => eraseCasesL t fr.c fr.x s
  | .right =>
    match fr.sib with
    | .node .red sl sx sr =>
      /- Case 1 - right rotate at parent -/
      match eraseCasesR t .red fr.x (paintBlack sr) with
      | .done t' => .done (.node fr.c sl sx t')
      | .up t' => .done (.node fr.c sl sx t')
    | s => eraseCasesR t fr.c fr.x s

/-- The `__rb_erase_color` loop: run iterations up the parent chain;
`done` breaks and plugs the produced subtree back, `up` recurses with the
deficiency one level higher (Case 2 with a black parent).  Reaching the
root (`parent == NULL`) breaks, absorbing the deficit. -/
def eraseFixupGo : Tree α → List (Frame α) → Tree α
  | t, [] => t
  | t, fr :: rest =>
    match eraseStep t fr with
    | .done t' => plug t' rest
    | .up t' => eraseFixupGo t' rest

/-- `RBTree::erase`: unlink, then `__rb_erase_color` exactly when the
rebalance signal is non-null. -/
def rb_erase_at (c : Color) (l : Tree α) (x : α) (r : Tree α)
    (path : List (Frame α)) : Tree α :=
  match rb_erase_unlink c l x r path with
  | (t', none) => t'
  | (_, some π) => eraseFixupGo .nil π

/-! ## The balance predicate

`Balanced t c n`: the subtree `t` has root color `c` and black height `n`
(number of black nodes on every path to an absent child), and contains no
red node with a red child.  This packages invariants 2, 4 and 5 of the
source's header comment for subtrees. -/

inductive Balanced : Tree α → Color → Nat → Prop
  | nil : Balanced .nil .black 0
  | red {l : Tree α} {x : α} {r n} :
      Balanced l .black n → Balanced r .black n → Balanced (.node .red l x r) .red n
  | black {l : Tree α} {x : α} {r n c₁ c₂} :
      Balanced l c₁ n → Balanced r c₂ n → Balanced (.node .black l x r) .black (n + 1)

/-! ## Path balance

`PathBal π c n c' n'`: plugging a subtree with root color `c` and black
height `n` into the parent chain `π` produces a tree with root color `c'`
and black height `n'`, every frame being consistent with the red-black
invariants (a red parent demands a black child). -/

inductive PathBal : List (Frame α) → Color → Nat → Color → Nat → Prop
  | nil {c n} : PathBal [] c n c n
  | redF {π : List (Frame α)} {d x sib n c' n'} :
      Balanced sib .black n → PathBal π .red n c' n' →
      PathBal (⟨d, .red, x, sib⟩ :: π) .black n c' n'
  | blackF {π : List (Frame α)} {d x sib n c c₂ c' n'} :
      Balanced sib c₂ n → PathBal π .black (n + 1) c' n' →
      PathBal (⟨d, .black, x, sib⟩ :: π) c n c' n'

/-! ## Materialized heap layout and invariant 4

Invariant 4 ("for every node `n`, `n.parent.left == n` or
`n.parent.right == n`, and the root's parent is absent") talks about the
parent pointers, which the tree representation keeps implicit.  To state
it we lay a tree out in memory: position `1` for the root, positions
`2a` / `2a + 1` for the children of position `a`, pointer value `4 * a`
for position `a` (so every pointer is 4-aligned, leaving the two low bits
free as the source requires) and `0` for null. -/

/-- A node as laid out in memory: the three linkage fields of `RBNode`. -/
structure NodeRec where
  rb_left : Nat
  rb_right : Nat
  parent_color : Nat
deriving DecidableEq, Repr

/-- Pointer value of heap position `a`. -/
def ptr (a : Nat) : Nat := 4 * a

/-- Pointer to a child subtree laid out at position `a`: null if absent. -/
def childPtr (t : Tree α) (a : Nat) : Nat :=
  match t with
  | .nil => 0
  | .node _ _ _ _ => ptr a

/-- Materialize the subtree `t` at position `a` whose parent pointer is
`par` as an association list of heap cells. -/
def mat : Tree α → Nat → Nat → List (Nat × NodeRec)
  | .nil, _, _ => []
  | .node c l _ r, a, par =>
    (a, ⟨childPtr l (2 * a), childPtr r (2 * a + 1),
         rb_set_parent_color_w par c.toBit⟩)
      :: (mat l (2 * a) (ptr a) ++ mat r (2 * a + 1) (ptr a))

/-- Does some heap cell with pointer value `parptr` point back (through
`rb_left` or `rb_right`) at position `a`? -/
def pointsBack (h : List (Nat × NodeRec)) (a parptr : Nat) : Bool :=
  h.any fun e => ptr e.1 == parptr && (e.2.rb_left == ptr a || e.2.rb_right == ptr a)

/-- Invariant 4 over a heap: every cell's parent pointer is either null
(the root) or the parent cell's left or right child pointer points back
at the cell. -/
def parentConsistent (h : List (Nat × NodeRec)) : Bool :=
  h.all fun e =>
    rb_parent_w e.2.parent_color == 0 || pointsBack h e.1 (rb_parent_w e.2.parent_color)

/-- Step-counted version of the `__rb_insert` loop: `none` when the fuel
runs out before the loop breaks.  Identical to `insertFixupGo` except for
the explicit iteration budget. -/
def insertIter : Nat → Tree α → List (Frame α) → Option (Tree α)
  | 0, _, _ => none
  | _ + 1, t, [] => some (paintBlack t)
  | fuel + 1, t, p :: rest =>
    if p.c = .black then some (plug t (p :: rest))
    else
      match rest with
      | [] => some (plug t [p])
      | g :: rest' =>
        match insertStep t p g with
        | .done t' => some (plug t' rest')
        | .up t' => insertIter fuel t' rest'

/-- Payloads contributed by the parent chain to the left of the hole, in
order: the left context of the plugged subtree's in-order sequence. -/
def ctxL : List (Frame α) → List α
  | [] => []
  | f :: fs =>
    match f.d with
    | .left => ctxL fs
    | .right => ctxL fs ++ inorder f.sib ++ [f.x]

/-- Payloads contributed by the parent chain to the right of the hole. -/
def ctxR : List (Frame α) → List α
  | [] => []
  | f :: fs =>
    match f.d with
    | .left => f.x :: inorder f.sib ++ ctxR fs
    | .right => ctxR fs

/-- `RBTree::replace(victim, new)`: the replacement takes over the
victim's three linkage fields verbatim — color `c`, left child `l`,
right child `r` and the victim's slot in the tree (the parent chain `π`)
— via `__rb_change_child`, the two `rb_set_parent` calls on the children
and the struct copy `*n = *victim`; only the payload changes. -/
def RBTree_replace (c : Color) (l : Tree α) (r : Tree α) (y : α)
    (π : List (Frame α)) : Tree α :=
  plug (.node c l y r) π

/-- Following the spec's words: the in-order successor is "the leftmost
node of `n.right`'s subtree"; this reads off its payload. -/
def leftmostPayload : Tree α → Option α
  | .nil => none
  | .node _ .nil x _ => some x
  | .node _ (.node lc ll lx lr) _ _ => leftmostPayload (.node lc ll lx lr)

/-- Following the spec's words: remove the leftmost node, letting "its
own right child (possibly absent) take its former slot". -/
def removeLeftmost : Tree α → Tree α
  | .nil => .nil
  | .node _ .nil _ r => r
  | .node c (.node lc ll lx lr) x r =>
    .node c (removeLeftmost (.node lc ll lx lr)) x r

/-- Payload-only skeleton of a tree: which payload sits in which slot,
colors forgotten. -/
inductive PShape (α : Type) where
  | leaf
  | branch (l : PShape α) (x : α) (r : PShape α)
deriving DecidableEq, Repr

/-- Skeleton of a tree. -/
def shape : Tree α → PShape α
  | .nil => .leaf
  | .node _ l x r => .branch (shape l) x (shape r)

/-- The subtree carried by a step result. -/
def stepTree : Step α → Tree α
  | .done t => t
  | .up t => t

/-- Number of black nodes in a subtree.  The "color removed by the
unlink" is black exactly when this count drops by one across the unlink
(exactly one node leaves the tree, and the local recolorings of
`__rb_erase` otherwise conserve the number of blacks). -/
def blackCount : Tree α → Nat
  | .nil => 0
  | .node c l _ r => blackCount l + blackCount r + (if c = .black then 1 else 0)

/-- Black nodes contributed by a parent chain. -/
def ctxBlack : List (Frame α) → Nat
  | [] => 0
  | f :: fs => blackCount f.sib + (if f.c = .black then 1 else 0) + ctxBlack fs

/-! ## Theorems -/

theorem balanced_notRedRoot {t : Tree α} {n} (h : Balanced t .black n) :
    isRedRoot t = false := by
  cases h <;> rfl

theorem Balanced.to_noRedRed {t : Tree α} {c n} (h : Balanced t c n) :
    noRedRed t = true := by
  induction h with
  | nil => rfl
  | red hl hr ihl ihr =>
    simp [noRedRed, balanced_notRedRoot hl, balanced_notRedRoot hr, ihl, ihr]
  | black hl hr ihl ihr => simp [noRedRed, ihl, ihr]

theorem Balanced.to_blackH {t : Tree α} {c n} (h : Balanced t c n) :
    blackH t = some n := by
  induction h with
  | nil => rfl
  | red hl hr ihl ihr => simp [blackH, ihl, ihr]
  | black hl hr ihl ihr => simp [blackH, ihl, ihr]

theorem Balanced.to_rootBlack {t : Tree α} {n} (h : Balanced t .black n) :
    rootBlack t = true := by
  cases h <;> rfl

theorem balanced_of_checks {t : Tree α} {n} (h1 : noRedRed t = true)
    (h2 : blackH t = some n) :
    Balanced t (if isRedRoot t then .red else .black) n := by
  induction t generalizing n with
  | nil =>
    simp [blackH] at h2
    subst h2
    exact .nil
  | node c l x r ihl ihr =>
    simp only [blackH] at h2
    rcases hl : blackH l with _ | m <;> rcases hr : blackH r with _ | k <;>
        rw [hl, hr] at h2
    · exact absurd h2 (by simp)
    · exact absurd h2 (by simp)
    · exact absurd h2 (by simp)
    dsimp only at h2
    by_cases hmk : m = k
    case neg => rw [if_neg hmk] at h2; exact absurd h2 (by simp)
    case pos =>
      subst hmk
      rw [if_pos rfl] at h2
      cases c with
      | red =>
        simp only [noRedRed, Bool.and_eq_true, Bool.not_eq_true'] at h1
        obtain ⟨⟨⟨nl, nr⟩, hnl⟩, hnr⟩ := h1
        have bl := ihl hnl hl
        have br := ihr hnr hr
        rw [nl] at bl; rw [nr] at br
        simp only [Bool.false_eq_true, if_false] at bl br
        simp only [reduceIte, Option.some.injEq, Nat.add_zero] at h2
        subst h2
        simpa [isRedRoot] using Balanced.red (x := x) bl br
      | black =>
        simp only [noRedRed, Bool.and_eq_true] at h1
        have bl := ihl h1.1 hl
        have br := ihr h1.2 hr
        simp only [reduceIte, Option.some.injEq] at h2
        subst h2
        simpa [isRedRoot] using Balanced.black (x := x) bl br

/-- The executable three-invariant check coincides with the balance
predicate. -/
theorem validRB_iff {t : Tree α} : validRB t = true ↔ ∃ n, Balanced t .black n := by
  constructor
  · intro h
    simp only [validRB, Bool.and_eq_true, Option.isSome_iff_exists] at h
    obtain ⟨⟨hroot, hrr⟩, n, hbh⟩ := h
    refine ⟨n, ?_⟩
    have hb := balanced_of_checks hrr hbh
    have : isRedRoot t = false := by
      cases t with
      | nil => rfl
      | node c l x r => cases c with
        | red => simp [rootBlack] at hroot
        | black => rfl
    rwa [this] at hb
  · rintro ⟨n, h⟩
    simp only [validRB, Bool.and_eq_true, Option.isSome_iff_exists]
    exact ⟨⟨h.to_rootBlack, h.to_noRedRed⟩, n, h.to_blackH⟩

theorem balanced_nil_inv {c : Color} {n : Nat} (h : Balanced (Tree.nil : Tree α) c n) :
    c = .black ∧ n = 0 := by cases h; exact ⟨rfl, rfl⟩

theorem balanced_black_of_not_red {t : Tree α} {c n} (h : Balanced t c n)
    (hr : isRedRoot t = false) : Balanced t .black n := by
  cases h with
  | nil => exact .nil
  | red hl hr' => simp [isRedRoot] at hr
  | black hl hr' => exact .black hl hr'

theorem balanced_pos_ne_nil {t : Tree α} {n} (h : Balanced t .black (n + 1)) :
    ∃ l x r, t = Tree.node .black l x r := by
  cases h with
  | black hl hr => exact ⟨_, _, _, rfl⟩

theorem plugBal {π : List (Frame α)} {c n c' n'} {t : Tree α}
    (hπ : PathBal π c n c' n') (ht : Balanced t c n) :
    Balanced (plug t π) c' n' := by
  induction hπ generalizing t with
  | nil => exact ht
  | @redF π d x sib n c' n' hs htail ih =>
    cases d
    · exact ih (.red ht hs)
    · exact ih (.red hs ht)
  | @blackF π d x sib n c c₂ c' n' hs htail ih =>
    cases d
    · exact ih (.black ht hs)
    · exact ih (.black hs ht)

theorem plugBal_black {π : List (Frame α)} {c n n'} {t : Tree α}
    (hπ : PathBal π c n .black n') (ht : Balanced t .black n) :
    Balanced (plug t π) .black n' := by
  cases hπ with
  | nil => exact ht
  | @redF π d x sib n _ _ hs htail =>
    cases d
    · exact plugBal (t := .node .red t x sib) htail (.red ht hs)
    · exact plugBal (t := .node .red sib x t) htail (.red hs ht)
  | @blackF π d x sib n c c₂ _ _ hs htail =>
    cases d
    · exact plugBal (t := .node .black t x sib) htail (.black ht hs)
    · exact plugBal (t := .node .black sib x t) htail (.black hs ht)

theorem pathBal_append {π₁ π₂ : List (Frame α)} {c n c₁ n₁ c' n'}
    (h1 : PathBal π₁ c n c₁ n₁) (h2 : PathBal π₂ c₁ n₁ c' n') :
    PathBal (π₁ ++ π₂) c n c' n' := by
  induction h1 with
  | nil => exact h2
  | redF hs htail ih => exact .redF hs (ih h2)
  | blackF hs htail ih => exact .blackF hs (ih h2)

/-- Decomposing a balanced tree at an arbitrary position: the parent
chain is path-balanced and the subtree in the hole is balanced with the
matching boundary. -/
theorem plug_decomp {π : List (Frame α)} {s : Tree α} {c' n'}
    (h : Balanced (plug s π) c' n') :
    ∃ c n, PathBal π c n c' n' ∧ Balanced s c n := by
  induction π generalizing s with
  | nil => exact ⟨c', n', .nil, h⟩
  | cons f fs ih =>
    obtain ⟨c1, n1, hp, hb⟩ := ih (s := assemble f s) h
    obtain ⟨d, fc, fx, fsib⟩ := f
    cases d with
    | left =>
      simp only [assemble] at hb
      cases hb with
      | red hl hr => exact ⟨.black, n1, .redF hr hp, hl⟩
      | black hl hr => exact ⟨_, _, .blackF hr hp, hl⟩
    | right =>
      simp only [assemble] at hb
      cases hb with
      | red hl hr => exact ⟨.black, n1, .redF hl hp, hr⟩
      | black hl hr => exact ⟨_, _, .blackF hl hp, hr⟩

theorem paintBlack_balanced {s : Tree α} {n} (h : Balanced s .black n) :
    Balanced (paintBlack s) .black n := by
  cases h with
  | nil => exact .nil
  | black hl hr => exact .black hl hr

theorem paintBlack_of_red {s : Tree α} {n} (h : Balanced s .red n) :
    Balanced (paintBlack s) .black (n + 1) := by
  cases h with
  | red hl hr => exact .black hl hr

theorem balanced_red_inv {l r : Tree α} {x : α} {c n}
    (h : Balanced (Tree.node .red l x r) c n) :
    c = .red ∧ Balanced l .black n ∧ Balanced r .black n := by
  cases h with
  | red hl hr => exact ⟨rfl, hl, hr⟩

theorem balanced_black_inv {l r : Tree α} {x : α} {c n}
    (h : Balanced (Tree.node .black l x r) c n) :
    c = .black ∧ ∃ m c₁ c₂, n = m + 1 ∧ Balanced l c₁ m ∧ Balanced r c₂ m := by
  cases h with
  | black hl hr => exact ⟨rfl, _, _, _, rfl, hl, hr⟩

/-! ## Correctness of the insertion fixup -/

/-- Invariant preservation for the `__rb_insert` loop: if the parent
chain is path-balanced towards a black root of black height `n₀` and the
current subtree is a balanced red tree of the height the hole expects,
the loop rebuilds a balanced black-rooted tree; the black height grows by
one exactly when the recoloring reaches the root. -/
theorem insert_go_ok : ∀ (π : List (Frame α)) (t : Tree α) (c : Color) (n n₀ : Nat),
    PathBal π c n .black n₀ → Balanced t .red n →
    Balanced (insertFixupGo t π) .black n₀ ∨
      Balanced (insertFixupGo t π) .black (n₀ + 1)
  | [] => by
    intro t c n n₀ hπ ht
    cases hπ
    cases ht with
    | red hl hr =>
      right
      exact .black hl hr
  | [p] => by
    intro t c n n₀ hπ ht
    cases hπ with
    | redF hs htail => cases htail
    | @blackF _ d x sib m _ c₂ _ _ hs htail =>
      cases htail
      left
      simp only [insertFixupGo, reduceIte]
      cases d <;> simp only [plug, assemble]
      · exact .black ht hs
      · exact .black hs ht
  | p :: g :: rest => by
    intro t c n n₀ hπ ht
    cases hπ with
    | @blackF _ d x sib m _ c₂ _ _ hs htail =>
      left
      simp only [insertFixupGo, reduceIte]
      show Balanced (plug (assemble ⟨d, .black, x, sib⟩ t) (g :: rest)) .black _
      cases d
      · exact plugBal_black htail (.black ht hs)
      · exact plugBal_black htail (.black hs ht)
    | @redF _ d x sib m _ _ hs htail =>
      cases htail with
      | @blackF _ gd gx gsib gm _ gc₂ _ _ hg htail2 =>
        simp only [insertFixupGo, reduceCtorEq, reduceIte]
        cases ht with
        | @red tl tx tr _ htl htr =>
        cases gd with
        | left =>
          match gsib, hg with
          | .node .red ul ux ur, hg =>
            obtain ⟨rfl, hul, hur⟩ := balanced_red_inv hg
            simp only [insertStep]
            refine insert_go_ok rest _ _ _ _ htail2 ?_
            cases d
            · exact .red (.black (.red htl htr) hs) (.black hul hur)
            · exact .red (.black hs (.red htl htr)) (.black hul hur)
          | .nil, hg =>
            cases hg
            simp only [insertStep]
            cases d
            · left
              exact plugBal htail2
                (.black (.red htl htr) (.red (paintBlack_balanced hs) .nil))
            · left
              exact plugBal htail2
                (.black (.red hs (paintBlack_balanced htl))
                  (.red (paintBlack_balanced htr) .nil))
          | .node .black ul ux ur, hg =>
            obtain ⟨-, um, uc₁, uc₂, rfl, hul, hur⟩ := balanced_black_inv hg
            simp only [insertStep]
            cases d
            · left
              exact plugBal htail2
                (.black (.red htl htr)
                  (.red (paintBlack_balanced hs) (.black hul hur)))
            · left
              exact plugBal htail2
                (.black (.red hs (paintBlack_balanced htl))
                  (.red (paintBlack_balanced htr) (.black hul hur)))
        | right =>
          match gsib, hg with
          | .node .red ul ux ur, hg =>
            obtain ⟨rfl, hul, hur⟩ := balanced_red_inv hg
            simp only [insertStep]
            refine insert_go_ok rest _ _ _ _ htail2 ?_
            cases d
            · exact .red (.black hul hur) (.black (.red htl htr) hs)
            · exact .red (.black hul hur) (.black hs (.red htl htr))
          | .nil, hg =>
            cases hg
            simp only [insertStep]
            cases d
            · left
              exact plugBal htail2
                (.black (.red .nil (paintBlack_balanced htl))
                  (.red (paintBlack_balanced htr) hs))
            · left
              exact plugBal htail2
                (.black (.red .nil (paintBlack_balanced hs)) (.red htl htr))
          | .node .black ul ux ur, hg =>
            obtain ⟨-, um, uc₁, uc₂, rfl, hul, hur⟩ := balanced_black_inv hg
            simp only [insertStep]
            cases d
            · left
              exact plugBal htail2
                (.black (.red (.black hul hur) (paintBlack_balanced htl))
                  (.red (paintBlack_balanced htr) hs))
            · left
              exact plugBal htail2
                (.black (.red (.black hul hur) (paintBlack_balanced hs))
                  (.red htl htr))

theorem rb_parent_w_set {par : Nat} (c : Color) (hpar : 4 ∣ par) :
    rb_parent_w (rb_set_parent_color_w par c.toBit) = par := by
  obtain ⟨q, rfl⟩ := hpar
  cases c <;>
    simp [rb_parent_w, rb_set_parent_color_w, Color.toBit, Nat.add_mul_mod_self_left,
      Nat.mul_mod_right, Nat.mul_add_mod]

theorem pointsBack_mono {h H : List (Nat × NodeRec)} {a parptr : Nat}
    (hsub : ∀ e ∈ h, e ∈ H) (hp : pointsBack h a parptr = true) :
    pointsBack H a parptr = true := by
  simp only [pointsBack, List.any_eq_true] at hp ⊢
  obtain ⟨e, he, hcond⟩ := hp
  exact ⟨e, hsub e he, hcond⟩

theorem mat_entries_ok (H : List (Nat × NodeRec)) :
    ∀ (t : Tree α) (a par : Nat), 4 ∣ par →
      (∀ e ∈ mat t a par, e ∈ H) →
      (par = 0 ∨ pointsBack H a par = true) →
      ∀ e ∈ mat t a par,
        rb_parent_w e.2.parent_color = 0 ∨
          pointsBack H e.1 (rb_parent_w e.2.parent_color) = true := by
  intro t
  induction t with
  | nil => intro a par _ _ _ e he; simp [mat] at he
  | node c l x r ihl ihr =>
    intro a par hpar hsub hroot e he
    simp only [mat, List.mem_cons, List.mem_append] at he
    rcases he with rfl | he | he
    · simp only [rb_parent_w_set c hpar]
      rcases hroot with h0 | hp
      · exact Or.inl h0
      · exact Or.inr hp
    · refine ihl (2 * a) (ptr a) ⟨a, rfl⟩
        (fun e' he' => hsub e' (by simp [mat, List.mem_cons, List.mem_append, he']))
        ?_ e he
      right
      have hmem : ((a, ⟨childPtr l (2 * a), childPtr r (2 * a + 1),
          rb_set_parent_color_w par c.toBit⟩) : Nat × NodeRec) ∈ H :=
        hsub _ (by simp [mat])
      have : childPtr l (2 * a) = ptr (2 * a) := by
        cases l with
        | nil => simp [mat] at he
        | node _ _ _ _ => rfl
      simp only [pointsBack, List.any_eq_true]
      exact ⟨_, hmem, by simp [this]⟩
    · refine ihr (2 * a + 1) (ptr a) ⟨a, rfl⟩
        (fun e' he' => hsub e' (by simp [mat, List.mem_cons, List.mem_append, he']))
        ?_ e he
      right
      have hmem : ((a, ⟨childPtr l (2 * a), childPtr r (2 * a + 1),
          rb_set_parent_color_w par c.toBit⟩) : Nat × NodeRec) ∈ H :=
        hsub _ (by simp [mat])
      have : childPtr r (2 * a + 1) = ptr (2 * a + 1) := by
        cases r with
        | nil => simp [mat] at he
        | node _ _ _ _ => rfl
      simp only [pointsBack, List.any_eq_true]
      exact ⟨_, hmem, by simp [this]⟩

/-- Invariant 4 holds of every materialized tree: the layout derived from
the child structure always has consistent parent pointers, which is what
the pointer surgery of the source maintains. -/
theorem mat_parentConsistent (t : Tree α) : parentConsistent (mat t 1 0) = true := by
  simp only [parentConsistent, List.all_eq_true]
  intro e he
  have := mat_entries_ok (mat t 1 0) t 1 0 ⟨0, rfl⟩ (fun _ h => h) (Or.inl rfl) e he
  rcases this with h | h
  · simp [h]
  · simp [h]

/-- C1: insert_color restores all four red-black invariants after a fresh
red leaf is attached at any empty slot of a valid tree.  The slot is the
parent chain `π` (any position whose hole is an absent child of `t`), the
fresh node is the red leaf with payload `x` linked there by
`rb_link_node`, and the conclusion gives the root-black / no-red-red /
uniform-black-count invariants of the fixed-up tree together with the
parent-pointer consistency of its memory layout. -/
theorem insert_color_preserves_invariants {t : Tree α} {π : List (Frame α)} (x : α)
    (hv : validRB t = true) (hπ : plug Tree.nil π = t) :
    validRB (rb_insert_at x π) = true ∧
      parentConsistent (mat (rb_insert_at x π) 1 0) = true := by
  refine ⟨?_, mat_parentConsistent _⟩
  obtain ⟨n₀, hb⟩ := validRB_iff.mp hv
  subst hπ
  obtain ⟨c, n, hp, hnil⟩ := plug_decomp hb
  obtain ⟨rfl, rfl⟩ := balanced_nil_inv hnil
  rcases insert_go_ok π (.node .red .nil x .nil) _ _ _ hp (.red .nil .nil) with h | h
  · exact validRB_iff.mpr ⟨_, h⟩
  · exact validRB_iff.mpr ⟨_, h⟩

/-- Witness for C1 at a concrete input: inserting payload `0` below the
node `1` of the valid tree `2B (1r, 3r)`. -/
theorem insert_color_preserves_invariants_witness :
    validRB (Tree.node .black (.node .red .nil 1 .nil) 2 (.node .red .nil 3 .nil)) = true ∧
    plug Tree.nil [⟨.left, .red, 1, .nil⟩,
        ⟨.left, .black, 2, .node .red .nil 3 .nil⟩] =
      Tree.node .black (.node .red .nil 1 .nil) 2 (.node .red .nil 3 .nil) ∧
    (validRB (rb_insert_at 0 [⟨.left, .red, 1, .nil⟩,
        ⟨.left, .black, 2, .node .red .nil 3 .nil⟩]) = true ∧
      parentConsistent (mat (rb_insert_at 0 [⟨.left, .red, 1, .nil⟩,
        ⟨.left, .black, 2, .node .red .nil 3 .nil⟩]) 1 0) = true) :=
  ⟨by decide, by decide,
   @insert_color_preserves_invariants Nat
     (Tree.node .black (.node .red .nil 1 .nil) 2 (.node .red .nil 3 .nil))
     [⟨.left, .red, 1, .nil⟩, ⟨.left, .black, 2, .node .red .nil 3 .nil⟩]
     0 (by decide) (by decide)⟩

/-- C7: round-trip of the packed parent-and-color word.  Writing
`rb_set_parent_color(rb, p, c)` with a 4-aligned `p` and reading back
yields parent `p` (two low bits masked) and color bit `c` (`0` red, `1`
black); `rb_set_parent` replaces the parent bits and preserves the color
bit; `rb_set_black` sets the color bit and preserves the parent bits. -/
theorem parent_color_packing (p pc : Nat) (c : Color) (hp : 4 ∣ p) :
    rb_parent_w (rb_set_parent_color_w p c.toBit) = p ∧
    rb_color_w (rb_set_parent_color_w p c.toBit) = c.toBit ∧
    rb_color_w (rb_set_parent_w pc p) = rb_color_w pc ∧
    rb_parent_w (rb_set_parent_w pc p) = p ∧
    rb_color_w (rb_set_black_w pc) = Color.black.toBit ∧
    rb_parent_w (rb_set_black_w pc) = rb_parent_w pc := by
  obtain ⟨q, rfl⟩ := hp
  refine ⟨?_, ?_, ?_, ?_, ?_, ?_⟩ <;> cases c <;>
    simp only [rb_parent_w, rb_color_w, rb_set_parent_color_w, rb_set_parent_w,
      rb_set_black_w, Color.toBit] <;> omega

/-- Witness for C7 at `p = 8`, `pc = 13`, `c = red`. -/
theorem parent_color_packing_witness :
    rb_parent_w (rb_set_parent_color_w 8 Color.red.toBit) = 8 ∧
    rb_color_w (rb_set_parent_color_w 8 Color.red.toBit) = Color.red.toBit ∧
    rb_color_w (rb_set_parent_w 13 8) = rb_color_w 13 ∧
    rb_parent_w (rb_set_parent_w 13 8) = 8 ∧
    rb_color_w (rb_set_black_w 13) = Color.black.toBit ∧
    rb_parent_w (rb_set_black_w 13) = rb_parent_w 13 :=
  parent_color_packing 8 13 .red ⟨2, rfl⟩

/-- C9: the insertion loop only ever sees a red current node, so
`rb_red_parent` — which returns the whole packed word unmasked — is
correct there.  First conjunct: on a red node's word the unmasked read
equals the stored 4-aligned parent, and the stored color bit is `0`.
Second: the freshly linked node is red.  Third: whenever an iteration of
`__rb_insert` continues the loop (Case 1), the new current node is again
red, so the loop invariant is preserved by every case. -/
theorem rb_red_parent_loop_invariant :
    (∀ p : Nat, 4 ∣ p →
      rb_red_parent_w (rb_set_parent_color_w p Color.red.toBit) = p ∧
      rb_color_w (rb_set_parent_color_w p Color.red.toBit) = 0) ∧
    (∀ x : α, isRedRoot (Tree.node .red .nil x .nil) = true) ∧
    (∀ (t : Tree α) (p g : Frame α) (t' : Tree α),
      insertStep t p g = .up t' → isRedRoot t' = true) := by
  refine ⟨?_, fun _ => rfl, ?_⟩
  · intro p hp
    obtain ⟨q, rfl⟩ := hp
    refine ⟨rfl, ?_⟩
    simp only [rb_color_w, rb_set_parent_color_w, Color.toBit]
    omega
  · intro t p g t' h
    obtain ⟨gd, gc, gx, gsib⟩ := g
    cases gd <;> rcases gsib with _ | ⟨_ | _, ul, ux, ur⟩ <;>
        simp only [insertStep] at h
    case left.node.red => cases h; rfl
    case right.node.red => cases h; rfl
    all_goals
      obtain ⟨pd, pc, px, psib⟩ := p
      cases pd <;> cases t <;> simp only [insertStep] at h <;> cases h

theorem insertIter_of_lt :
    ∀ (fuel : Nat) (t : Tree α) (π : List (Frame α)), π.length < fuel →
      insertIter fuel t π = some (insertFixupGo t π) := by
  intro fuel
  induction fuel with
  | zero => intro t π h; omega
  | succ fuel ih =>
    intro t π h
    match π with
    | [] => rfl
    | p :: rest =>
      match rest with
      | [] => by_cases hc : p.c = .black <;> simp [insertIter, insertFixupGo, hc]
      | g :: rest' =>
        by_cases hc : p.c = .black
        · simp only [insertIter, insertFixupGo, if_pos hc]
        · simp only [insertIter, insertFixupGo, if_neg hc]
          match hstep : insertStep t p g with
          | .done t' => simp only [hstep]
          | .up t' =>
            simp only [hstep]
            refine ih t' rest' ?_
            simp only [List.length_cons] at h
            omega

/-- C8: the insertion fixup loop terminates.  Running the loop with an
iteration budget of one more than the node's distance to the root (the
length of the parent chain) always reaches a break, and a Case 1
iteration (`up`) strictly decreases that distance — it re-enters the loop
at the grandparent, two frames closer to the root — while every other
case breaks out (`done`). -/
theorem insert_fixup_terminates :
    (∀ (t : Tree α) (π : List (Frame α)),
      insertIter (π.length + 1) t π = some (insertFixupGo t π)) ∧
    (∀ (t : Tree α) (p g : Frame α) (rest : List (Frame α)) (t' : Tree α),
      p.c = .red → insertStep t p g = .up t' →
      insertFixupGo t (p :: g :: rest) = insertFixupGo t' rest ∧
        rest.length + 2 = (p :: g :: rest).length) := by
  constructor
  · intro t π
    exact insertIter_of_lt (π.length + 1) t π (by omega)
  · intro t p g rest t' hred hstep
    constructor
    · simp only [insertFixupGo, hstep]
      rw [if_neg (by simp [hred])]
    · simp

/-- Witness for C8: the fuel bound at a concrete two-frame path and the
distance decrease at a concrete Case 1 input. -/
theorem insert_fixup_terminates_witness :
    insertIter (2 + 1) (Tree.node .red .nil (0 : Nat) .nil)
        [⟨.left, .red, 1, .nil⟩, ⟨.left, .black, 2, .node .red .nil 3 .nil⟩] =
      some (insertFixupGo (Tree.node .red .nil 0 .nil)
        [⟨.left, .red, 1, .nil⟩, ⟨.left, .black, 2, .node .red .nil 3 .nil⟩]) ∧
    (insertFixupGo (Tree.node .red .nil (0 : Nat) .nil)
        [⟨.left, .red, 1, .nil⟩, ⟨.left, .black, 2, .node .red .nil 3 .nil⟩] =
      insertFixupGo (Tree.node .red
          (assemble { d := Dir.left, c := Color.black, x := 1, sib := (.nil : Tree Nat) }
            (.node .red .nil 0 .nil)) 2 (.node .black .nil 3 .nil)) [] ∧
      List.length ([] : List (Frame Nat)) + 2 =
        ([⟨.left, .red, 1, .nil⟩,
          ⟨.left, .black, 2, .node .red .nil 3 .nil⟩] : List (Frame Nat)).length) :=
  ⟨(insert_fixup_terminates (α := Nat)).1 (Tree.node .red .nil 0 .nil)
     [⟨.left, .red, 1, .nil⟩, ⟨.left, .black, 2, .node .red .nil 3 .nil⟩],
   (insert_fixup_terminates (α := Nat)).2 (.node .red .nil 0 .nil)
     ⟨.left, .red, 1, .nil⟩ ⟨.left, .black, 2, .node .red .nil 3 .nil⟩ [] _ rfl rfl⟩

theorem inorder_plug : ∀ (π : List (Frame α)) (t : Tree α),
    inorder (plug t π) = ctxL π ++ inorder t ++ ctxR π := by
  intro π
  induction π with
  | nil => intro t; simp [plug, ctxL, ctxR]
  | cons f fs ih =>
    intro t
    obtain ⟨d, fc, fx, fsib⟩ := f
    cases d <;> simp [plug, assemble, ctxL, ctxR, ih, inorder]

theorem ctxL_append (π₁ π₂ : List (Frame α)) :
    ctxL (π₁ ++ π₂) = ctxL π₂ ++ ctxL π₁ := by
  induction π₁ with
  | nil => simp [ctxL]
  | cons f fs ih =>
    obtain ⟨d, fc, fx, fsib⟩ := f
    cases d <;> simp [ctxL, ih]

theorem ctxR_append (π₁ π₂ : List (Frame α)) :
    ctxR (π₁ ++ π₂) = ctxR π₁ ++ ctxR π₂ := by
  induction π₁ with
  | nil => simp [ctxR]
  | cons f fs ih =>
    obtain ⟨d, fc, fx, fsib⟩ := f
    cases d <;> simp [ctxR, ih]

/-- Payloads are untouched by balance bookkeeping. -/
theorem inorder_paintBlack (t : Tree α) : inorder (paintBlack t) = inorder t := by
  cases t <;> rfl

theorem balanced_payload {c : Color} {l r : Tree α} {x y : α} {c' n}
    (h : Balanced (Tree.node c l x r) c' n) :
    Balanced (Tree.node c l y r) c' n := by
  cases h with
  | red hl hr => exact .red hl hr
  | black hl hr => exact .black hl hr

/-- C6: `replace(victim, new)` splices the new node into the victim's
slot copying the linkage fields verbatim (the definition of
`RBTree_replace` takes the victim's color, children and slot unchanged);
the result satisfies the red-black invariants without any rebalancing,
its memory layout keeps parent pointers consistent with child pointers,
and its in-order sequence is the previous one with the new payload
exactly in the victim's position. -/
theorem replace_preserves_invariants {t : Tree α} {π : List (Frame α)}
    {c : Color} {l r : Tree α} {x : α} (y : α)
    (hv : validRB t = true) (ht : plug (Tree.node c l x r) π = t) :
    validRB (RBTree_replace c l r y π) = true ∧
    parentConsistent (mat (RBTree_replace c l r y π) 1 0) = true ∧
    inorder t = ctxL π ++ (inorder l ++ x :: inorder r) ++ ctxR π ∧
    inorder (RBTree_replace c l r y π) =
      ctxL π ++ (inorder l ++ y :: inorder r) ++ ctxR π := by
  refine ⟨?_, mat_parentConsistent _, ?_, ?_⟩
  · obtain ⟨n₀, hb⟩ := validRB_iff.mp hv
    subst ht
    obtain ⟨c', n, hp, hnode⟩ := plug_decomp hb
    exact validRB_iff.mpr ⟨n₀, plugBal hp (balanced_payload hnode)⟩
  · rw [← ht, inorder_plug]
    rfl
  · rw [RBTree_replace, inorder_plug]
    rfl

/-- Witness for C6: replacing the payload of node `1` of the valid tree
`2B (1r, 3r)` by `9`. -/
theorem replace_preserves_invariants_witness :
    validRB (Tree.node .black (.node .red .nil 1 .nil) 2 (.node .red .nil 3 .nil)) = true ∧
    plug (Tree.node .red .nil 1 .nil) [⟨.left, .black, 2, .node .red .nil 3 .nil⟩] =
      Tree.node .black (.node .red .nil 1 .nil) 2 (.node .red .nil 3 .nil) ∧
    (validRB (RBTree_replace .red .nil .nil 9
        [⟨.left, .black, 2, .node .red .nil 3 .nil⟩]) = true ∧
      parentConsistent (mat (RBTree_replace .red .nil .nil 9
        [⟨.left, .black, 2, .node .red .nil 3 .nil⟩]) 1 0) = true ∧
      inorder (Tree.node .black (.node .red .nil 1 .nil) 2 (.node .red .nil 3 .nil)) =
        ctxL [⟨.left, .black, 2, .node .red .nil 3 .nil⟩] ++
          (inorder (Tree.nil : Tree Nat) ++ 1 :: inorder (Tree.nil : Tree Nat)) ++
          ctxR [⟨.left, .black, 2, .node .red .nil 3 .nil⟩] ∧
      inorder (RBTree_replace .red .nil .nil 9
          [⟨.left, .black, 2, .node .red .nil 3 .nil⟩]) =
        ctxL [⟨.left, .black, 2, .node .red .nil 3 .nil⟩] ++
          (inorder (Tree.nil : Tree Nat) ++ 9 :: inorder (Tree.nil : Tree Nat)) ++
          ctxR [⟨.left, .black, 2, .node .red .nil 3 .nil⟩]) :=
  ⟨by decide, by decide,
   @replace_preserves_invariants Nat
     (Tree.node .black (.node .red .nil 1 .nil) 2 (.node .red .nil 3 .nil))
     [⟨.left, .black, 2, .node .red .nil 3 .nil⟩]
     .red .nil .nil 1 9 (by decide) (by decide)⟩

theorem shape_paintBlack (t : Tree α) : shape (paintBlack t) = shape t := by
  cases t <;> rfl

theorem shape_plug_congr : ∀ (π : List (Frame α)) {u v : Tree α},
    shape u = shape v → shape (plug u π) = shape (plug v π) := by
  intro π
  induction π with
  | nil => intro u v h; exact h
  | cons f fs ih =>
    intro u v h
    obtain ⟨d, fc, fx, fsib⟩ := f
    cases d <;> exact ih (by simp [assemble, shape, h])

/-- The successor descent of `__rb_erase` Case 3 finds the leftmost
payload, and replacing the successor by its (black-painted) right child
leaves exactly the skeleton of the spec-side `removeLeftmost`. -/
theorem leftmostZip_spec : ∀ (l : Tree α) (c : Color) (x : α) (r : Tree α)
    (acc : List (Frame α)),
    leftmostPayload (Tree.node c l x r) = some (leftmostZip c l x r acc).2.2.1 ∧
    shape (plug (paintBlack (leftmostZip c l x r acc).2.2.2)
        (leftmostZip c l x r acc).1) =
      shape (plug (removeLeftmost (Tree.node c l x r)) acc) := by
  intro l
  induction l with
  | nil =>
    intro c x r acc
    exact ⟨rfl, shape_plug_congr acc (shape_paintBlack r)⟩
  | node lc ll lx lr ihl ihr =>
    intro c x r acc
    exact ihl lc lx lr (⟨.left, c, x, r⟩ :: acc)

/-- C5: on a node with both children present the unlink phase of erase
splices in the in-order successor `s` (leftmost of `n.right`): `s` takes
`n`'s slot with `n`'s color `c` and `n`'s left subtree `l` unchanged,
the right subtree is `n.right` with `s` replaced by `s`'s former right
child (skeleton-wise exactly `removeLeftmost`), and in the special case
`n.right` has no left child, `s = n.right` directly replaces `n` keeping
its own right subtree (painted black when present) and adopting `l`. -/
theorem erase_two_children_splices_successor {c : Color} {l r : Tree α} {x : α}
    (π : List (Frame α)) (hl : l ≠ Tree.nil) (hr : r ≠ Tree.nil) :
    ∃ s R', leftmostPayload r = some s ∧
      (rb_erase_unlink c l x r π).1 = plug (Tree.node c l s R') π ∧
      shape R' = shape (removeLeftmost r) ∧
      (∀ rc rl rx rr, r = Tree.node rc rl rx rr → rl = Tree.nil →
        s = rx ∧ R' = paintBlack rr) := by
  match l, hl with
  | .node lc ll lx lr, _ =>
    match r, hr with
    | .node rc rl rx rr, _ =>
      match rl with
      | .nil =>
        refine ⟨rx, paintBlack rr, rfl, ?_, ?_, ?_⟩
        · cases rr <;> rfl
        · rw [shape_paintBlack]; rfl
        · intro rc' rl' rx' rr' heq hnil
          cases heq
          exact ⟨rfl, rfl⟩
      | .node c0 l0 x0 r0 =>
        have hspec := leftmostZip_spec (Tree.node c0 l0 x0 r0) rc rx rr []
        match hz : leftmostZip c0 l0 x0 r0 [⟨.left, rc, rx, rr⟩] with
        | (ipath, sc, sx, c2) =>
          have hz' : leftmostZip rc (Tree.node c0 l0 x0 r0) rx rr [] =
              (ipath, sc, sx, c2) := hz
          rw [hz'] at hspec
          refine ⟨sx, plug (paintBlack c2) ipath, hspec.1, ?_, hspec.2, ?_⟩
          · simp only [rb_erase_unlink, hz]
            cases c2 <;> rfl
          · intro rc' rl' rx' rr' heq hnil
            cases heq
            exact absurd hnil (by simp)

/-- Witness for C5: erasing the root `2` of the valid tree
`2B (1r, 4B (3r, nil))` at the top slot. -/
theorem erase_two_children_splices_successor_witness :
    ∃ s R', leftmostPayload
        (Tree.node .black (.node .red .nil 3 .nil) 4 (.nil : Tree Nat)) = some s ∧
      (rb_erase_unlink .black (Tree.node .red .nil 1 .nil) 2
          (Tree.node .black (.node .red .nil 3 .nil) 4 .nil) []).1 =
        plug (Tree.node .black (Tree.node .red .nil 1 .nil) s R') [] ∧
      shape R' = shape (removeLeftmost
        (Tree.node .black (.node .red .nil 3 .nil) 4 .nil)) ∧
      (∀ rc rl rx rr,
        Tree.node .black (.node .red .nil 3 .nil) 4 (.nil : Tree Nat) =
          Tree.node rc rl rx rr →
        rl = Tree.nil → s = rx ∧ R' = paintBlack rr) :=
  @erase_two_children_splices_successor Nat .black (Tree.node .red .nil 1 .nil)
    (Tree.node .black (.node .red .nil 3 .nil) 4 .nil) 2 []
    (by decide) (by decide)

/-! ## Correctness of the erase color fixup -/

theorem eraseCasesL_red_ok {t sib : Tree α} {n : Nat} (px : α)
    (ht : Balanced t .black n) (hsib : Balanced sib .black (n + 1)) :
    ∃ t', eraseCasesL t .red px sib = .done t' ∧
      (Balanced t' .red (n + 1) ∨ Balanced t' .black (n + 1)) := by
  obtain ⟨sl, sx, sr, rfl⟩ := balanced_pos_ne_nil hsib
  obtain ⟨-, m, c₁, c₂, hm, hsl, hsr⟩ := balanced_black_inv hsib
  obtain rfl : m = n := by omega
  match sr, c₂, hsr with
  | .node .red a y b, _, hsr =>
    obtain ⟨-, ha, hb⟩ := balanced_red_inv hsr
    simp only [eraseCasesL]
    exact ⟨_, rfl, .inl (.red (.black ht hsl) (.black ha hb))⟩
  | .nil, _, hsr =>
    cases hsr
    match sl, c₁, hsl with
    | .node .red a y b, _, hsl =>
      obtain ⟨-, ha, hb⟩ := balanced_red_inv hsl
      simp only [eraseCasesL]
      exact ⟨_, rfl, .inl (.red (.black ht ha)
        (.black (paintBlack_balanced hb) .nil))⟩
    | .nil, _, hsl =>
      cases hsl
      simp only [eraseCasesL]
      exact ⟨_, rfl, .inr (.black ht (.red .nil .nil))⟩
    | .node .black a y b, _, hsl =>
      obtain ⟨-, m', d₁, d₂, hm', ha, hb⟩ := balanced_black_inv hsl
      omega
  | .node .black a y b, _, hsr =>
    match sl, c₁, hsl with
    | .node .red a' y' b', _, hsl =>
      obtain ⟨-, ha', hb'⟩ := balanced_red_inv hsl
      simp only [eraseCasesL]
      exact ⟨_, rfl, .inl (.red (.black ht ha')
        (.black (paintBlack_balanced hb') hsr))⟩
    | .nil, _, hsl =>
      cases hsl
      obtain ⟨-, m', d₁, d₂, hm', -, -⟩ := balanced_black_inv hsr
      omega
    | .node .black a' y' b', _, hsl =>
      have hsl' := balanced_black_of_not_red hsl rfl
      have hsr' := balanced_black_of_not_red hsr rfl
      simp only [eraseCasesL]
      exact ⟨_, rfl, .inr (.black ht (.red hsl' hsr'))⟩

theorem eraseCasesL_black_ok {t sib : Tree α} {n : Nat} (px : α)
    (ht : Balanced t .black n) (hsib : Balanced sib .black (n + 1)) :
    (∃ t', eraseCasesL t .black px sib = .done t' ∧ Balanced t' .black (n + 2)) ∨
    (∃ t', eraseCasesL t .black px sib = .up t' ∧ Balanced t' .black (n + 1)) := by
  obtain ⟨sl, sx, sr, rfl⟩ := balanced_pos_ne_nil hsib
  obtain ⟨-, m, c₁, c₂, hm, hsl, hsr⟩ := balanced_black_inv hsib
  obtain rfl : m = n := by omega
  match sr, c₂, hsr with
  | .node .red a y b, _, hsr =>
    obtain ⟨-, ha, hb⟩ := balanced_red_inv hsr
    simp only [eraseCasesL]
    exact .inl ⟨_, rfl, .black (.black ht hsl) (.black ha hb)⟩
  | .nil, _, hsr =>
    cases hsr
    match sl, c₁, hsl with
    | .node .red a y b, _, hsl =>
      obtain ⟨-, ha, hb⟩ := balanced_red_inv hsl
      simp only [eraseCasesL]
      exact .inl ⟨_, rfl, .black (.black ht ha)
        (.black (paintBlack_balanced hb) .nil)⟩
    | .nil, _, hsl =>
      cases hsl
      simp only [eraseCasesL]
      exact .inr ⟨_, rfl, .black ht (.red .nil .nil)⟩
    | .node .black a y b, _, hsl =>
      obtain ⟨-, m', d₁, d₂, hm', ha, hb⟩ := balanced_black_inv hsl
      omega
  | .node .black a y b, _, hsr =>
    match sl, c₁, hsl with
    | .node .red a' y' b', _, hsl =>
      obtain ⟨-, ha', hb'⟩ := balanced_red_inv hsl
      simp only [eraseCasesL]
      exact .inl ⟨_, rfl, .black (.black ht ha')
        (.black (paintBlack_balanced hb') hsr)⟩
    | .nil, _, hsl =>
      cases hsl
      obtain ⟨-, m', d₁, d₂, hm', -, -⟩ := balanced_black_inv hsr
      omega
    | .node .black a' y' b', _, hsl =>
      have hsl' := balanced_black_of_not_red hsl rfl
      have hsr' := balanced_black_of_not_red hsr rfl
      simp only [eraseCasesL]
      exact .inr ⟨_, rfl, .black ht (.red hsl' hsr')⟩

theorem eraseCasesR_red_ok {t sib : Tree α} {n : Nat} (px : α)
    (ht : Balanced t .black n) (hsib : Balanced sib .black (n + 1)) :
    ∃ t', eraseCasesR t .red px sib = .done t' ∧
      (Balanced t' .red (n + 1) ∨ Balanced t' .black (n + 1)) := by
  obtain ⟨sl, sx, sr, rfl⟩ := balanced_pos_ne_nil hsib
  obtain ⟨-, m, c₁, c₂, hm, hsl, hsr⟩ := balanced_black_inv hsib
  obtain rfl : m = n := by omega
  match sl, c₁, hsl with
  | .node .red a y b, _, hsl =>
    obtain ⟨-, ha, hb⟩ := balanced_red_inv hsl
    simp only [eraseCasesR]
    exact ⟨_, rfl, .inl (.red (.black ha hb) (.black hsr ht))⟩
  | .nil, _, hsl =>
    cases hsl
    match sr, c₂, hsr with
    | .node .red a y b, _, hsr =>
      obtain ⟨-, ha, hb⟩ := balanced_red_inv hsr
      simp only [eraseCasesR]
      exact ⟨_, rfl, .inl (.red (.black .nil (paintBlack_balanced ha))
        (.black hb ht))⟩
    | .nil, _, hsr =>
      cases hsr
      simp only [eraseCasesR]
      exact ⟨_, rfl, .inr (.black (.red .nil .nil) ht)⟩
    | .node .black a y b, _, hsr =>
      obtain ⟨-, m', d₁, d₂, hm', ha, hb⟩ := balanced_black_inv hsr
      omega
  | .node .black a y b, _, hsl =>
    match sr, c₂, hsr with
    | .node .red a' y' b', _, hsr =>
      obtain ⟨-, ha', hb'⟩ := balanced_red_inv hsr
      simp only [eraseCasesR]
      exact ⟨_, rfl, .inl (.red (.black hsl (paintBlack_balanced ha'))
        (.black hb' ht))⟩
    | .nil, _, hsr =>
      cases hsr
      obtain ⟨-, m', d₁, d₂, hm', -, -⟩ := balanced_black_inv hsl
      omega
    | .node .black a' y' b', _, hsr =>
      have hsl' := balanced_black_of_not_red hsl rfl
      have hsr' := balanced_black_of_not_red hsr rfl
      simp only [eraseCasesR]
      exact ⟨_, rfl, .inr (.black (.red hsl' hsr') ht)⟩

theorem eraseCasesR_black_ok {t sib : Tree α} {n : Nat} (px : α)
    (ht : Balanced t .black n) (hsib : Balanced sib .black (n + 1)) :
    (∃ t', eraseCasesR t .black px sib = .done t' ∧ Balanced t' .black (n + 2)) ∨
    (∃ t', eraseCasesR t .black px sib = .up t' ∧ Balanced t' .black (n + 1)) := by
  obtain ⟨sl, sx, sr, rfl⟩ := balanced_pos_ne_nil hsib
  obtain ⟨-, m, c₁, c₂, hm, hsl, hsr⟩ := balanced_black_inv hsib
  obtain rfl : m = n := by omega
  match sl, c₁, hsl with
  | .node .red a y b, _, hsl =>
    obtain ⟨-, ha, hb⟩ := balanced_red_inv hsl
    simp only [eraseCasesR]
    exact .inl ⟨_, rfl, .black (.black ha hb) (.black hsr ht)⟩
  | .nil, _, hsl =>
    cases hsl
    match sr, c₂, hsr with
    | .node .red a y b, _, hsr =>
      obtain ⟨-, ha, hb⟩ := balanced_red_inv hsr
      simp only [eraseCasesR]
      exact .inl ⟨_, rfl, .black (.black .nil (paintBlack_balanced ha))
        (.black hb ht)⟩
    | .nil, _, hsr =>
      cases hsr
      simp only [eraseCasesR]
      exact .inr ⟨_, rfl, .black (.red .nil .nil) ht⟩
    | .node .black a y b, _, hsr =>
      obtain ⟨-, m', d₁, d₂, hm', ha, hb⟩ := balanced_black_inv hsr
      omega
  | .node .black a y b, _, hsl =>
    match sr, c₂, hsr with
    | .node .red a' y' b', _, hsr =>
      obtain ⟨-, ha', hb'⟩ := balanced_red_inv hsr
      simp only [eraseCasesR]
      exact .inl ⟨_, rfl, .black (.black hsl (paintBlack_balanced ha'))
        (.black hb' ht)⟩
    | .nil, _, hsr =>
      cases hsr
      obtain ⟨-, m', d₁, d₂, hm', -, -⟩ := balanced_black_inv hsl
      omega
    | .node .black a' y' b', _, hsr =>
      have hsl' := balanced_black_of_not_red hsl rfl
      have hsr' := balanced_black_of_not_red hsr rfl
      simp only [eraseCasesR]
      exact .inr ⟨_, rfl, .black (.red hsl' hsr') ht⟩

theorem eraseStep_red_ok {t : Tree α} {d : Dir} {x : α} {sib : Tree α} {n : Nat}
    (ht : Balanced t .black n) (hs : Balanced sib .black (n + 1)) :
    ∃ t', eraseStep t ⟨d, .red, x, sib⟩ = .done t' ∧
      (Balanced t' .red (n + 1) ∨ Balanced t' .black (n + 1)) := by
  obtain ⟨sl, sx, sr, rfl⟩ := balanced_pos_ne_nil hs
  cases d
  · simp only [eraseStep]
    exact eraseCasesL_red_ok x ht hs
  · simp only [eraseStep]
    exact eraseCasesR_red_ok x ht hs

theorem eraseStep_black_ok {t : Tree α} {d : Dir} {x : α} {sib : Tree α}
    {n : Nat} {c₂ : Color}
    (ht : Balanced t .black n) (hs : Balanced sib c₂ (n + 1)) :
    (∃ t', eraseStep t ⟨d, .black, x, sib⟩ = .done t' ∧ Balanced t' .black (n + 2)) ∨
    (∃ t', eraseStep t ⟨d, .black, x, sib⟩ = .up t' ∧ Balanced t' .black (n + 1)) := by
  cases hs with
  | @red sl sx sr _ hsl hsr =>
    cases d
    · simp only [eraseStep]
      obtain ⟨t'', heq, hbal⟩ := eraseCasesL_red_ok x ht (paintBlack_balanced hsl)
      rw [heq]
      rcases hbal with h | h <;> exact .inl ⟨_, rfl, .black h hsr⟩
    · simp only [eraseStep]
      obtain ⟨t'', heq, hbal⟩ := eraseCasesR_red_ok x ht (paintBlack_balanced hsr)
      rw [heq]
      rcases hbal with h | h <;> exact .inl ⟨_, rfl, .black hsl h⟩
  | @black sl sx sr m d₁ d₂ hsl hsr =>
    have hs' : Balanced (Tree.node .black sl sx sr) .black (n + 1) := .black hsl hsr
    cases d
    · simp only [eraseStep]
      exact eraseCasesL_black_ok x ht hs'
    · simp only [eraseStep]
      exact eraseCasesR_black_ok x ht hs'

/-- Invariant preservation for the `__rb_erase_color` loop: a deficient
black-rooted (or absent) subtree whose black count is one short of what
its parent chain expects is rebuilt into a balanced black-rooted tree. -/
theorem erase_go_ok : ∀ (π : List (Frame α)) (t : Tree α) (c : Color) (n n₀ : Nat),
    PathBal π c (n + 1) .black n₀ → Balanced t .black n →
    ∃ n', Balanced (eraseFixupGo t π) .black n'
  | [] => by
    intro t c n n₀ hπ ht
    cases hπ
    exact ⟨n, ht⟩
  | fr :: rest => by
    intro t c n n₀ hπ ht
    cases hπ with
    | @redF _ d x sib _ _ _ hs htail =>
      obtain ⟨t', heq, hbal⟩ := eraseStep_red_ok (d := d) (x := x) ht hs
      simp only [eraseFixupGo, heq]
      rcases hbal with h | h
      · exact ⟨n₀, plugBal htail h⟩
      · exact ⟨n₀, plugBal_black htail h⟩
    | @blackF _ d x sib _ _ c₂ _ _ hs htail =>
      rcases eraseStep_black_ok (d := d) (x := x) ht hs with ⟨t', heq, h⟩ | ⟨t', heq, h⟩
      · simp only [eraseFixupGo, heq]
        exact ⟨n₀, plugBal htail h⟩
      · simp only [eraseFixupGo, heq]
        exact erase_go_ok rest t' .black (n + 1) n₀ htail h

/-- Balance of the successor descent: the frames pushed while walking to
the leftmost node are path-balanced, with the successor node itself
filling the hole. -/
theorem leftmostZip_bal : ∀ (l : Tree α) (c : Color) (x : α) (r : Tree α)
    (acc : List (Frame α)) {cc : Color} {hh : Nat} {c' : Color} {n' : Nat},
    Balanced (Tree.node c l x r) cc hh → PathBal acc cc hh c' n' →
    ∃ hs, PathBal (leftmostZip c l x r acc).1 (leftmostZip c l x r acc).2.1 hs c' n' ∧
      Balanced (Tree.node (leftmostZip c l x r acc).2.1 .nil
          (leftmostZip c l x r acc).2.2.1 (leftmostZip c l x r acc).2.2.2)
        (leftmostZip c l x r acc).2.1 hs := by
  intro l
  induction l with
  | nil =>
    intro c x r acc cc hh c' n' hnode hπ
    cases hnode with
    | red hl hr => exact ⟨_, hπ, .red hl hr⟩
    | black hl hr => exact ⟨_, hπ, .black hl hr⟩
  | node lc ll lx lr ihl ihr =>
    intro c x r acc cc hh c' n' hnode hπ
    cases hnode with
    | red hl hr => exact ihl lc lx lr (⟨.left, .red, x, r⟩ :: acc) hl (.redF hr hπ)
    | black hl hr => exact ihl lc lx lr (⟨.left, .black, x, r⟩ :: acc) hl (.blackF hr hπ)

/-- The successor descent only decomposes the subtree: plugging the
successor node back into the frames it pushed restores the input. -/
theorem leftmostZip_plug : ∀ (l : Tree α) (c : Color) (x : α) (r : Tree α)
    (acc : List (Frame α)),
    plug (Tree.node (leftmostZip c l x r acc).2.1 .nil
        (leftmostZip c l x r acc).2.2.1 (leftmostZip c l x r acc).2.2.2)
      (leftmostZip c l x r acc).1 =
    plug (Tree.node c l x r) acc := by
  intro l
  induction l with
  | nil => intro c x r acc; rfl
  | node lc ll lx lr ihl ihr =>
    intro c x r acc
    exact ihl lc lx lr (⟨.left, c, x, r⟩ :: acc)

/-- The successor descent pushes only `.left` frames, so it contributes
nothing to the left context of the hole. -/
theorem leftmostZip_ctxL : ∀ (l : Tree α) (c : Color) (x : α) (r : Tree α)
    (acc : List (Frame α)),
    ctxL (leftmostZip c l x r acc).1 = ctxL acc := by
  intro l
  induction l with
  | nil => intro c x r acc; rfl
  | node lc ll lx lr ihl ihr =>
    intro c x r acc
    exact ihl lc lx lr (⟨.left, c, x, r⟩ :: acc)

theorem eraseCasesL_inorder (t : Tree α) (pc : Color) (px : α) (s : Tree α) :
    inorder (stepTree (eraseCasesL t pc px s)) = inorder t ++ px :: inorder s := by
  rcases s with _ | ⟨sc, sl, sx, _ | ⟨rc, a, y, b⟩⟩
  · simp [eraseCasesL, stepTree, inorder]
  · rcases sl with _ | ⟨lc, a2, y2, b2⟩
    · cases pc <;> simp [eraseCasesL, stepTree, inorder]
    · cases lc
      · simp [eraseCasesL, stepTree, inorder, inorder_paintBlack]
      · cases pc <;> simp [eraseCasesL, stepTree, inorder]
  · cases rc
    · simp [eraseCasesL, stepTree, inorder]
    · rcases sl with _ | ⟨lc, a2, y2, b2⟩
      · cases pc <;> simp [eraseCasesL, stepTree, inorder]
      · cases lc
        · simp [eraseCasesL, stepTree, inorder, inorder_paintBlack]
        · cases pc <;> simp [eraseCasesL, stepTree, inorder]

theorem eraseCasesR_inorder (t : Tree α) (pc : Color) (px : α) (s : Tree α) :
    inorder (stepTree (eraseCasesR t pc px s)) = inorder s ++ px :: inorder t := by
  rcases s with _ | ⟨sc, _ | ⟨lc, a, y, b⟩, sx, sr⟩
  · simp [eraseCasesR, stepTree, inorder]
  · rcases sr with _ | ⟨rc, a2, y2, b2⟩
    · cases pc <;> simp [eraseCasesR, stepTree, inorder]
    · cases rc
      · simp [eraseCasesR, stepTree, inorder, inorder_paintBlack]
      · cases pc <;> simp [eraseCasesR, stepTree, inorder]
  · cases lc
    · simp [eraseCasesR, stepTree, inorder]
    · rcases sr with _ | ⟨rc, a2, y2, b2⟩
      · cases pc <;> simp [eraseCasesR, stepTree, inorder]
      · cases rc
        · simp [eraseCasesR, stepTree, inorder, inorder_paintBlack]
        · cases pc <;> simp [eraseCasesR, stepTree, inorder]

theorem eraseStep_inorder (t : Tree α) (fr : Frame α) :
    inorder (stepTree (eraseStep t fr)) = inorder (assemble fr t) := by
  obtain ⟨d, fc, fx, sib⟩ := fr
  cases d
  · rcases sib with _ | ⟨sc, sl, sx, sr⟩
    · simp [eraseStep, stepTree, assemble, inorder, eraseCasesL]
    · cases sc
      · simp only [eraseStep]
        have h := eraseCasesL_inorder t .red fx (paintBlack sl)
        match heq : eraseCasesL t .red fx (paintBlack sl) with
        | .done t'' =>
          rw [heq] at h
          simp only [stepTree] at h
          simp [stepTree, inorder, assemble, h, inorder_paintBlack]
        | .up t'' =>
          rw [heq] at h
          simp only [stepTree] at h
          simp [stepTree, inorder, assemble, h, inorder_paintBlack]
      · simp only [eraseStep]
        rw [eraseCasesL_inorder t fc fx (Tree.node .black sl sx sr)]
        simp [assemble, inorder]
  · rcases sib with _ | ⟨sc, sl, sx, sr⟩
    · simp [eraseStep, stepTree, assemble, inorder, eraseCasesR]
    · cases sc
      · simp only [eraseStep]
        have h := eraseCasesR_inorder t .red fx (paintBlack sr)
        match heq : eraseCasesR t .red fx (paintBlack sr) with
        | .done t'' =>
          rw [heq] at h
          simp only [stepTree] at h
          simp [stepTree, inorder, assemble, h, inorder_paintBlack]
        | .up t'' =>
          rw [heq] at h
          simp only [stepTree] at h
          simp [stepTree, inorder, assemble, h, inorder_paintBlack]
      · simp only [eraseStep]
        rw [eraseCasesR_inorder t fc fx (Tree.node .black sl sx sr)]
        simp [assemble, inorder]

theorem eraseFixupGo_inorder : ∀ (π : List (Frame α)) (t : Tree α),
    inorder (eraseFixupGo t π) = ctxL π ++ inorder t ++ ctxR π
  | [] => by intro t; simp [eraseFixupGo, ctxL, ctxR]
  | fr :: rest => by
    intro t
    have h := eraseStep_inorder t fr
    match heq : eraseStep t fr with
    | .done t' =>
      rw [heq] at h
      simp only [stepTree] at h
      simp only [eraseFixupGo, heq]
      rw [inorder_plug, h]
      obtain ⟨d, fc, fx, sib⟩ := fr
      cases d <;> simp [assemble, inorder, ctxL, ctxR]
    | .up t' =>
      rw [heq] at h
      simp only [stepTree] at h
      simp only [eraseFixupGo, heq]
      rw [eraseFixupGo_inorder rest t', h]
      obtain ⟨d, fc, fx, sib⟩ := fr
      cases d <;> simp [assemble, inorder, ctxL, ctxR]

theorem balanced_black_zero {s : Tree α} (h : Balanced s .black 0) : s = .nil := by
  cases h
  rfl

theorem balanced_unique {t : Tree α} {c₁ c₂ : Color} {n₁ n₂ : Nat}
    (h₁ : Balanced t c₁ n₁) (h₂ : Balanced t c₂ n₂) : c₁ = c₂ ∧ n₁ = n₂ := by
  induction h₁ generalizing c₂ n₂ with
  | nil => cases h₂; exact ⟨rfl, rfl⟩
  | red hl hr ihl ihr =>
    cases h₂ with
    | red hl₂ hr₂ => exact ⟨rfl, (ihl hl₂).2⟩
  | black hl hr ihl ihr =>
    cases h₂ with
    | black hl₂ hr₂ => exact ⟨rfl, by rw [(ihl hl₂).2]⟩

/-- Replacing the right child by one of the same root color and black
height (payload free) keeps a node balanced. -/
theorem balanced_set_right {c : Color} {l r r' : Tree α} {x y : α}
    {cc cr : Color} {hh n : Nat}
    (h : Balanced (Tree.node c l x r) cc hh) (hold : Balanced r cr n)
    (hnew : Balanced r' cr n) :
    Balanced (Tree.node c l y r') cc hh := by
  cases h with
  | red hl hr =>
    obtain ⟨rfl, rfl⟩ := balanced_unique hr hold
    exact .red hl hnew
  | black hl hr =>
    obtain ⟨rfl, rfl⟩ := balanced_unique hr hold
    exact .black hl hnew

/-- Replacing the right child by a black-rooted tree of the same black
height keeps a node balanced (a black child is acceptable anywhere). -/
theorem balanced_set_right_black {c : Color} {l r r' : Tree α} {x y : α}
    {cc cr : Color} {hh n : Nat}
    (h : Balanced (Tree.node c l x r) cc hh) (hold : Balanced r cr n)
    (hnew : Balanced r' .black n) :
    Balanced (Tree.node c l y r') cc hh := by
  cases h with
  | red hl hr =>
    obtain ⟨-, rfl⟩ := balanced_unique hr hold
    exact .red hl hnew
  | black hl hr =>
    obtain ⟨-, rfl⟩ := balanced_unique hr hold
    exact .black hl hnew

/-- Plugging a black-rooted tree of the expected height through at least
one frame yields the tree the path promises (the frame above the hole
accepts a black child no matter what color the hole expected). -/
theorem plugBal_black_cons {f : Frame α} {π : List (Frame α)} {c : Color}
    {n : Nat} {c' : Color} {n' : Nat} {u : Tree α}
    (hπ : PathBal (f :: π) c n c' n') (hu : Balanced u .black n) :
    Balanced (plug u (f :: π)) c' n' := by
  cases hπ with
  | @redF _ d xx sib _ _ _ hs htail =>
    cases d
    · exact plugBal (t := .node .red u xx sib) htail (.red hu hs)
    · exact plugBal (t := .node .red sib xx u) htail (.red hs hu)
  | @blackF _ d xx sib _ _ c₂ _ _ hs htail =>
    cases d
    · exact plugBal (t := .node .black u xx sib) htail (.black hu hs)
    · exact plugBal (t := .node .black sib xx u) htail (.black hs hu)

theorem leftmostZip_ne_nil : ∀ (l : Tree α) (c : Color) (x : α) (r : Tree α)
    (a : Frame α) (acc : List (Frame α)),
    (leftmostZip c l x r (a :: acc)).1 ≠ [] := by
  intro l
  induction l with
  | nil => intro c x r a acc; simp [leftmostZip]
  | node lc ll lx lr ihl ihr =>
    intro c x r a acc
    exact ihl lc lx lr ⟨.left, c, x, r⟩ (a :: acc)

theorem balanced_node_children {c : Color} {l r : Tree α} {x : α} {cc : Color}
    {hh : Nat} (h : Balanced (Tree.node c l x r) cc hh) :
    ∃ m cl cr2, Balanced l cl m ∧ Balanced r cr2 m := by
  cases h with
  | red hl hr => exact ⟨_, _, _, hl, hr⟩
  | black hl hr => exact ⟨_, _, _, hl, hr⟩

theorem inorder_paintTop (c : Color) (t : Tree α) :
    inorder (paintTop c t) = inorder t := by
  cases t <;> rfl

theorem pathBal_into_right {c : Color} {l r : Tree α} {x : α} {cc : Color}
    {hh : Nat} {π : List (Frame α)} {n₀ : Nat} (y : α)
    (hnode : Balanced (Tree.node c l x r) cc hh)
    (hπ : PathBal π cc hh .black n₀) :
    ∃ cx m, Balanced r cx m ∧ PathBal (⟨Dir.right, c, y, l⟩ :: π) cx m .black n₀ := by
  cases hnode with
  | red hl hr => exact ⟨.black, hh, hr, .redF hl hπ⟩
  | black hl hr => exact ⟨_, _, hr, .blackF hl hπ⟩

/-- Combined unlink/fixup correctness of `RBTree::erase` at an arbitrary
position: the result is a balanced black-rooted tree and its in-order
sequence drops exactly the erased payload. -/
theorem erase_at_ok {c : Color} {l r : Tree α} {x : α} {π : List (Frame α)}
    {cc : Color} {hh n₀ : Nat}
    (hnode : Balanced (Tree.node c l x r) cc hh)
    (hπ : PathBal π cc hh .black n₀) :
    (∃ n', Balanced (rb_erase_at c l x r π) .black n') ∧
    inorder (rb_erase_at c l x r π) = ctxL π ++ (inorder l ++ inorder r) ++ ctxR π := by
  match l, r with
  | .nil, .nil =>
    cases hnode with
    | red hl hr =>
      cases hl
      simp only [rb_erase_at, rb_erase_unlink]
      refine ⟨⟨n₀, plugBal_black hπ .nil⟩, ?_⟩
      rw [inorder_plug]
      simp [inorder]
    | black hl hr =>
      cases hl
      match π with
      | [] =>
        simp only [rb_erase_at, rb_erase_unlink]
        exact ⟨⟨0, .nil⟩, by simp [inorder, plug, ctxL, ctxR]⟩
      | fr :: rest =>
        simp only [rb_erase_at, rb_erase_unlink]
        refine ⟨erase_go_ok (fr :: rest) .nil _ 0 n₀ hπ .nil, ?_⟩
        rw [eraseFixupGo_inorder]
        simp [inorder]
  | .nil, .node rc rl rx rr =>
    cases hnode with
    | red hl hr =>
      cases hl
      exact absurd (balanced_black_zero hr) (by simp)
    | black hl hr =>
      cases hl
      cases hr with
      | red hrl hrr =>
        simp only [rb_erase_at, rb_erase_unlink, paintTop]
        refine ⟨⟨n₀, plugBal hπ (.black hrl hrr)⟩, ?_⟩
        rw [inorder_plug]
        simp [inorder]
  | .node lc ll lx lr, .nil =>
    cases hnode with
    | red hl hr =>
      cases hr
      exact absurd (balanced_black_zero hl) (by simp)
    | black hl hr =>
      cases hr
      cases hl with
      | red hll hlr =>
        simp only [rb_erase_at, rb_erase_unlink, paintTop]
        refine ⟨⟨n₀, plugBal hπ (.black hll hlr)⟩, ?_⟩
        rw [inorder_plug]
        simp [inorder]
  | .node lc ll lx lr, .node rc rl rx rr =>
    obtain ⟨m, cl2, cr2, hl, hr⟩ := balanced_node_children hnode
    match rl, hr with
    | .nil, hr =>
      cases hr with
      | red hrl hrr =>
        cases hrl
        obtain rfl := balanced_black_zero hrr
        simp only [rb_erase_at, rb_erase_unlink, reduceCtorEq, reduceIte]
        refine ⟨⟨n₀, plugBal hπ
          (balanced_set_right_black hnode (.red .nil .nil) .nil)⟩, ?_⟩
        rw [inorder_plug]
        simp [inorder]
      | black hrl hrr =>
        cases hrl
        match rr, hrr with
        | .nil, hrr =>
          cases hrr
          simp only [rb_erase_at, rb_erase_unlink, reduceIte]
          obtain ⟨cx, m2, hr2, hπ2⟩ := pathBal_into_right rx hnode hπ
          obtain ⟨rfl, rfl⟩ := balanced_unique hr2 (Balanced.black .nil .nil)
          refine ⟨erase_go_ok _ .nil .black 0 n₀ hπ2 .nil, ?_⟩
          rw [eraseFixupGo_inorder]
          simp [ctxL, ctxR, inorder]
        | .node rc2 a ay b, hrr =>
          cases hrr with
          | red ha hb =>
            simp only [rb_erase_at, rb_erase_unlink, paintBlack]
            refine ⟨⟨n₀, plugBal hπ (balanced_set_right_black hnode
              (.black .nil (.red ha hb)) (.black ha hb))⟩, ?_⟩
            rw [inorder_plug]
            simp [inorder]
    | .node c0 l0 x0 r0, hr =>
      match hz : leftmostZip c0 l0 x0 r0 [⟨.left, rc, rx, rr⟩] with
      | (ip, sc, sx2, c2) =>
        have hz' : leftmostZip rc (Tree.node c0 l0 x0 r0) rx rr [] =
            (ip, sc, sx2, c2) := hz
        have hz0 := leftmostZip_bal (Tree.node c0 l0 x0 r0) rc rx rr [] hr .nil
        have hzp := leftmostZip_plug (Tree.node c0 l0 x0 r0) rc rx rr []
        have hzc := leftmostZip_ctxL (Tree.node c0 l0 x0 r0) rc rx rr []
        rw [hz'] at hz0 hzp hzc
        simp only at hz0 hzp hzc
        have hzc' : ctxL ip = ([] : List α) := hzc
        obtain ⟨hs, hip, hsucc⟩ := hz0
        have hzp2 : plug (Tree.node sc Tree.nil sx2 c2) ip =
            Tree.node rc (Tree.node c0 l0 x0 r0) rx rr := hzp
        have hir : inorder (Tree.node rc (Tree.node c0 l0 x0 r0) rx rr) =
            sx2 :: inorder c2 ++ ctxR ip := by
          rw [← hzp2, inorder_plug, hzc]
          simp [inorder, ctxL]
        match c2, hip, hsucc with
        | .nil, hip, hsucc =>
          cases hsucc with
          | red h1 h2 =>
            cases h1
            simp only [rb_erase_at, rb_erase_unlink, hz, reduceCtorEq, reduceIte]
            have hne := leftmostZip_ne_nil l0 c0 x0 r0 ⟨.left, rc, rx, rr⟩ []
            rw [hz] at hne
            simp only at hne
            match ip, hne, hip with
            | f :: fs, _, hip =>
              have hR : Balanced (plug Tree.nil (f :: fs)) cr2 m :=
                plugBal_black_cons hip .nil
              refine ⟨⟨n₀, plugBal hπ (balanced_set_right hnode hr hR)⟩, ?_⟩
              rw [inorder_plug, hir]
              simp [inorder, inorder_plug, hzc']
          | black h1 h2 =>
            cases h1
            simp only [rb_erase_at, rb_erase_unlink, hz, reduceIte]
            obtain ⟨cx, m2, hr2, hπ2⟩ := pathBal_into_right sx2 hnode hπ
            obtain ⟨rfl, rfl⟩ := balanced_unique hr2 hr
            refine ⟨erase_go_ok _ .nil .black 0 n₀ (pathBal_append hip hπ2) .nil, ?_⟩
            rw [eraseFixupGo_inorder, ctxL_append, ctxR_append, hzc', hir]
            simp [ctxL, ctxR, inorder]
        | .node cc2 c2l c2x c2r, hip, hsucc =>
          cases hsucc with
          | red h1 h2 =>
            cases h1
            exact absurd (balanced_black_zero h2) (by simp)
          | black h1 h2 =>
            cases h1
            cases h2 with
            | red ha hb =>
              simp only [rb_erase_at, rb_erase_unlink, hz, paintBlack]
              have hR : Balanced (plug (Tree.node .black c2l c2x c2r) ip) cr2 m :=
                plugBal hip (.black ha hb)
              refine ⟨⟨n₀, plugBal hπ (balanced_set_right hnode hr hR)⟩, ?_⟩
              rw [inorder_plug, hir]
              simp [inorder, inorder_plug, hzc']

/-- C2: `erase(n)` removes exactly `n` and restores the invariants.  For
any valid tree and any node position in it (the node's fields `c l x r`
and its parent chain `π`), the erased tree satisfies the root-black /
no-red-red / uniform-black-count invariants and the parent-pointer
consistency of its layout; the in-order sequence of the result is the
previous in-order sequence with the occurrence of `x` at the node's
position deleted, so the multiset of payloads after is the one before
minus `x`. -/
theorem erase_removes_and_preserves_invariants {t : Tree α} {π : List (Frame α)}
    {c : Color} {l r : Tree α} {x : α}
    (hv : validRB t = true) (ht : plug (Tree.node c l x r) π = t) :
    validRB (rb_erase_at c l x r π) = true ∧
    parentConsistent (mat (rb_erase_at c l x r π) 1 0) = true ∧
    inorder t = ctxL π ++ (inorder l ++ x :: inorder r) ++ ctxR π ∧
    inorder (rb_erase_at c l x r π) = ctxL π ++ (inorder l ++ inorder r) ++ ctxR π ∧
    (inorder t).Perm (x :: inorder (rb_erase_at c l x r π)) := by
  obtain ⟨n₀, hb⟩ := validRB_iff.mp hv
  subst ht
  obtain ⟨cc, hh, hπ, hnode⟩ := plug_decomp hb
  obtain ⟨hbal, hio⟩ := erase_at_ok hnode hπ
  have hio_t : inorder (plug (Tree.node c l x r) π) =
      ctxL π ++ (inorder l ++ x :: inorder r) ++ ctxR π := by
    rw [inorder_plug]
    simp [inorder]
  refine ⟨validRB_iff.mpr hbal, mat_parentConsistent _, hio_t, hio, ?_⟩
  rw [hio_t, hio]
  simpa [List.append_assoc] using
    @List.perm_middle α x (ctxL π ++ inorder l) (inorder r ++ ctxR π)

/-- Witness for C2: erasing node `1` of the valid tree `2B (1r, 3r)`. -/
theorem erase_removes_and_preserves_invariants_witness :
    validRB (Tree.node .black (.node .red .nil 1 .nil) 2 (.node .red .nil 3 .nil)) = true ∧
    plug (Tree.node .red .nil 1 .nil) [⟨.left, .black, 2, .node .red .nil 3 .nil⟩] =
      Tree.node .black (.node .red .nil 1 .nil) 2 (.node .red .nil 3 .nil) ∧
    (validRB (rb_erase_at .red .nil 1 .nil
        [⟨.left, .black, 2, .node .red .nil 3 .nil⟩]) = true ∧
      parentConsistent (mat (rb_erase_at .red .nil 1 .nil
        [⟨.left, .black, 2, .node .red .nil 3 .nil⟩]) 1 0) = true ∧
      inorder (Tree.node .black (.node .red .nil 1 .nil) 2 (.node .red .nil 3 .nil)) =
        ctxL [⟨.left, .black, 2, .node .red .nil 3 .nil⟩] ++
          (inorder (Tree.nil : Tree Nat) ++ 1 :: inorder (Tree.nil : Tree Nat)) ++
          ctxR [⟨.left, .black, 2, .node .red .nil 3 .nil⟩] ∧
      inorder (rb_erase_at .red .nil 1 .nil
          [⟨.left, .black, 2, .node .red .nil 3 .nil⟩]) =
        ctxL [⟨.left, .black, 2, .node .red .nil 3 .nil⟩] ++
          (inorder (Tree.nil : Tree Nat) ++ inorder (Tree.nil : Tree Nat)) ++
          ctxR [⟨.left, .black, 2, .node .red .nil 3 .nil⟩] ∧
      (inorder (Tree.node .black (.node .red .nil 1 .nil) 2
          (.node .red .nil 3 .nil))).Perm
        (1 :: inorder (rb_erase_at .red .nil 1 .nil
          [⟨.left, .black, 2, .node .red .nil 3 .nil⟩]))) :=
  ⟨by decide, by decide,
   @erase_removes_and_preserves_invariants Nat
     (Tree.node .black (.node .red .nil 1 .nil) 2 (.node .red .nil 3 .nil))
     [⟨.left, .black, 2, .node .red .nil 3 .nil⟩]
     .red .nil .nil 1 (by decide) (by decide)⟩

theorem blackCount_plug : ∀ (π : List (Frame α)) (t : Tree α),
    blackCount (plug t π) = blackCount t + ctxBlack π := by
  intro π
  induction π with
  | nil => intro t; simp [plug, ctxBlack]
  | cons f fs ih =>
    intro t
    obtain ⟨d, fc, fx, fsib⟩ := f
    cases d <;> simp [plug, assemble, ctxBlack, blackCount, ih] <;> omega

/-- C3 counterexample: erasing the lone (black) root node removes a
black node — the black count drops by one — yet the rebalance signal is
absent (`__rb_erase` returns `rebalance = NULL` because the parent is
null), so "non-absent exactly when the removed color was black" fails as
stated. -/
theorem erase_rebalance_signal_root_counterexample :
    ¬ (((rb_erase_unlink .black .nil (0 : Nat) .nil []).2 ≠ none) ↔
      blackCount (Tree.node .black .nil (0 : Nat) .nil) =
        blackCount (rb_erase_unlink .black .nil (0 : Nat) .nil []).1 + 1) := by
  decide

/-- C3 amended: on a valid tree the unlink's rebalance signal is
non-absent exactly when the color removed by the unlink was black (the
black count drops by one across the unlink) and the erased node was not
the childless root; moreover `RBTree::erase` runs `__rb_erase_color`
exactly when the signal is non-absent — with an absent signal the erase
result is the unlink result unchanged, and with signal `σ` it is the
fixup run at `σ`. -/
theorem erase_rebalance_iff {t : Tree α} {π : List (Frame α)}
    {c : Color} {l r : Tree α} {x : α}
    (hv : validRB t = true) (ht : plug (Tree.node c l x r) π = t) :
    ((rb_erase_unlink c l x r π).2 ≠ none ↔
      (blackCount t = blackCount (rb_erase_unlink c l x r π).1 + 1 ∧
        ¬(π = [] ∧ l = Tree.nil ∧ r = Tree.nil))) ∧
    ((rb_erase_unlink c l x r π).2 = none →
      rb_erase_at c l x r π = (rb_erase_unlink c l x r π).1) ∧
    (∀ σ, (rb_erase_unlink c l x r π).2 = some σ →
      rb_erase_at c l x r π = eraseFixupGo .nil σ) := by
  refine ⟨?_, ?_, ?_⟩
  case refine_2 =>
    match h : rb_erase_unlink c l x r π with
    | (t', none) => intro _; simp [rb_erase_at, h]
    | (t', some σ) => intro h0; simp at h0
  case refine_3 =>
    intro σ hσ
    match h : rb_erase_unlink c l x r π with
    | (t', none) => rw [h] at hσ; simp at hσ
    | (t', some σ') =>
      rw [h] at hσ
      simp only [Option.some.injEq] at hσ
      subst hσ
      simp [rb_erase_at, h]
  case refine_1 =>
  obtain ⟨n₀, hb⟩ := validRB_iff.mp hv
  subst ht
  obtain ⟨cc, hh, hπ, hnode⟩ := plug_decomp hb
  match l, r with
  | .nil, .nil =>
    cases hnode with
    | red hl hr =>
      simp only [rb_erase_unlink, ne_eq, not_true_eq_false, false_iff, not_and]
      intro hcnt
      rw [blackCount_plug, blackCount_plug] at hcnt
      simp [blackCount] at hcnt
    | black hl hr =>
      match π with
      | [] =>
        simp only [rb_erase_unlink, ne_eq, not_true_eq_false, false_iff, not_and]
        intro hcnt
        simp
      | fr :: rest =>
        simp only [rb_erase_unlink, ne_eq, reduceCtorEq, not_false_eq_true, true_iff]
        refine ⟨?_, by simp⟩
        rw [blackCount_plug, blackCount_plug]
        simp [blackCount]
        omega
  | .nil, .node rc rl rx rr =>
    cases hnode with
    | red hl hr =>
      cases hl
      exact absurd (balanced_black_zero hr) (by simp)
    | black hl hr =>
      cases hl
      cases hr with
      | red hrl hrr =>
        simp only [rb_erase_unlink, ne_eq, not_true_eq_false, false_iff, not_and]
        intro hcnt
        rw [blackCount_plug, blackCount_plug] at hcnt
        simp [blackCount, paintTop] at hcnt
  | .node lc ll lx lr, .nil =>
    cases hnode with
    | red hl hr =>
      cases hr
      exact absurd (balanced_black_zero hl) (by simp)
    | black hl hr =>
      cases hr
      cases hl with
      | red hll hlr =>
        simp only [rb_erase_unlink, ne_eq, not_true_eq_false, false_iff, not_and]
        intro hcnt
        rw [blackCount_plug, blackCount_plug] at hcnt
        simp [blackCount, paintTop] at hcnt
  | .node lc ll lx lr, .node rc rl rx rr =>
    obtain ⟨m, cl2, cr2, hl, hr⟩ := balanced_node_children hnode
    match rl, hr with
    | .nil, hr =>
      cases hr with
      | red hrl hrr =>
        cases hrl
        obtain rfl := balanced_black_zero hrr
        simp only [rb_erase_unlink, reduceCtorEq, reduceIte, ne_eq,
          not_true_eq_false, false_iff, not_and]
        intro hcnt
        rw [blackCount_plug, blackCount_plug] at hcnt
        simp [blackCount] at hcnt
      | black hrl hrr =>
        cases hrl
        match rr, hrr with
        | .nil, hrr =>
          cases hrr
          simp only [rb_erase_unlink, reduceIte, ne_eq, reduceCtorEq,
            not_false_eq_true, true_iff]
          refine ⟨?_, by simp⟩
          rw [blackCount_plug, blackCount_plug]
          simp [blackCount]
          omega
        | .node rc2 a ay b, hrr =>
          cases hrr with
          | red ha hb =>
            simp only [rb_erase_unlink, ne_eq, not_true_eq_false, false_iff, not_and]
            intro hcnt
            rw [blackCount_plug, blackCount_plug] at hcnt
            simp [blackCount, paintBlack] at hcnt
    | .node c0 l0 x0 r0, hr =>
      match hz : leftmostZip c0 l0 x0 r0 [⟨.left, rc, rx, rr⟩] with
      | (ip, sc, sx2, c2) =>
        have hz' : leftmostZip rc (Tree.node c0 l0 x0 r0) rx rr [] =
            (ip, sc, sx2, c2) := hz
        have hz0 := leftmostZip_bal (Tree.node c0 l0 x0 r0) rc rx rr [] hr .nil
        have hzp := leftmostZip_plug (Tree.node c0 l0 x0 r0) rc rx rr []
        rw [hz'] at hz0 hzp
        simp only at hz0 hzp
        obtain ⟨hs, hip, hsucc⟩ := hz0
        have hzp2 : plug (Tree.node sc Tree.nil sx2 c2) ip =
            Tree.node rc (Tree.node c0 l0 x0 r0) rx rr := hzp
        have hcr : blackCount (Tree.node rc (Tree.node c0 l0 x0 r0) rx rr) =
            blackCount (Tree.node sc Tree.nil sx2 c2) + ctxBlack ip := by
          rw [← hzp2, blackCount_plug]
        match c2, hip, hsucc with
        | .nil, hip, hsucc =>
          cases hsucc with
          | red h1 h2 =>
            cases h1
            simp only [rb_erase_unlink, hz, reduceCtorEq, reduceIte, ne_eq,
              not_true_eq_false, false_iff, not_and]
            intro hcnt
            rw [blackCount_plug, blackCount_plug] at hcnt
            simp only [blackCount, blackCount_plug, reduceCtorEq, reduceIte] at hcnt
            simp only [blackCount, reduceCtorEq, reduceIte] at hcr
            omega
          | black h1 h2 =>
            cases h1
            simp only [rb_erase_unlink, hz, reduceIte, ne_eq, reduceCtorEq,
              not_false_eq_true, true_iff]
            refine ⟨?_, by simp⟩
            rw [blackCount_plug, blackCount_plug]
            simp only [blackCount, blackCount_plug, reduceCtorEq, reduceIte]
            simp only [blackCount, reduceCtorEq, reduceIte] at hcr
            omega
        | .node cc2 c2l c2x c2r, hip, hsucc =>
          cases hsucc with
          | red h1 h2 =>
            cases h1
            exact absurd (balanced_black_zero h2) (by simp)
          | black h1 h2 =>
            cases h1
            cases h2 with
            | red ha hb =>
              simp only [rb_erase_unlink, hz, ne_eq, not_true_eq_false,
                false_iff, not_and]
              intro hcnt
              rw [blackCount_plug, blackCount_plug] at hcnt
              simp only [blackCount, blackCount_plug, paintBlack, reduceCtorEq,
                reduceIte] at hcnt
              simp only [blackCount, reduceCtorEq, reduceIte] at hcr
              omega

/-- Witness for the amended C3: erasing the red leaf `1` of
`2B (1r, 3r)` — the signal is absent and no black is removed. -/
theorem erase_rebalance_iff_witness :
    (((rb_erase_unlink .red .nil 1 .nil
        [⟨.left, .black, 2, Tree.node .red .nil 3 .nil⟩]).2 ≠ none ↔
      (blackCount (Tree.node .black (.node .red .nil 1 .nil) 2
          (.node .red .nil 3 .nil)) =
        blackCount (rb_erase_unlink .red .nil 1 .nil
          [⟨.left, .black, 2, Tree.node .red .nil 3 .nil⟩]).1 + 1 ∧
        ¬([⟨.left, .black, 2, Tree.node .red .nil 3 .nil⟩] =
            ([] : List (Frame Nat)) ∧
          (Tree.nil : Tree Nat) = Tree.nil ∧ (Tree.nil : Tree Nat) = Tree.nil)))) ∧
    ((rb_erase_unlink .red .nil 1 .nil
        [⟨.left, .black, 2, Tree.node .red .nil 3 .nil⟩]).2 = none →
      rb_erase_at .red .nil 1 .nil
          [⟨.left, .black, 2, Tree.node .red .nil 3 .nil⟩] =
        (rb_erase_unlink .red .nil 1 .nil
          [⟨.left, .black, 2, Tree.node .red .nil 3 .nil⟩]).1) ∧
    (∀ σ, (rb_erase_unlink .red .nil 1 .nil
        [⟨.left, .black, 2, Tree.node .red .nil 3 .nil⟩]).2 = some σ →
      rb_erase_at .red .nil 1 .nil
          [⟨.left, .black, 2, Tree.node .red .nil 3 .nil⟩] =
        eraseFixupGo .nil σ) :=
  @erase_rebalance_iff Nat
    (Tree.node .black (.node .red .nil 1 .nil) 2 (.node .red .nil 3 .nil))
    [⟨.left, .black, 2, Tree.node .red .nil 3 .nil⟩]
    .red .nil .nil 1 (by decide) (by decide)

/-- C10: in Case 1 of `__rb_erase_color` the red sibling's inner child is
dereferenced (`rb_set_parent_color(tmp1, parent, RB_BLACK)`) without a
null check.  Under the fixup precondition — the deficient subtree `t` is
black-rooted or absent with uniform black count `n`, and the paths
through the sibling carry one more black, so the sibling has uniform
black count `n + 1` — a red sibling necessarily has two present
black-rooted children, so neither the inner child painted by the source
nor its mirror is absent. -/
theorem erase_case1_sibling_children_present {t sib : Tree α} {n : Nat}
    (hdef : nilOrBlack t = true) (hbt : blackH t = some n) (hnr : noRedRed t = true)
    (hred : isRedRoot sib = true) (hnrs : noRedRed sib = true)
    (hbs : blackH sib = some (n + 1)) :
    ∃ sl sx sr, sib = Tree.node .red sl sx sr ∧
      sl ≠ Tree.nil ∧ rootBlack sl = true ∧ sr ≠ Tree.nil ∧ rootBlack sr = true := by
  have hb := balanced_of_checks hnrs hbs
  rw [hred, if_pos rfl] at hb
  match sib, hred, hb with
  | .node .red sl sx sr, _, hb =>
    obtain ⟨-, hsl, hsr⟩ := balanced_red_inv hb
    obtain ⟨l1, x1, r1, rfl⟩ := balanced_pos_ne_nil hsl
    obtain ⟨l2, x2, r2, rfl⟩ := balanced_pos_ne_nil hsr
    exact ⟨_, _, _, rfl, by simp, rfl, by simp, rfl⟩

/-- Witness for C10: a deficient absent child with a red sibling of black
count 1. -/
theorem erase_case1_sibling_children_present_witness :
    ∃ sl sx sr,
      (Tree.node .red (.node .black .nil 1 .nil) 2 (.node .black .nil 3 .nil)) =
        Tree.node .red sl sx sr ∧
      sl ≠ Tree.nil ∧ rootBlack sl = true ∧ sr ≠ (Tree.nil : Tree Nat) ∧
      rootBlack sr = true :=
  @erase_case1_sibling_children_present Nat Tree.nil
    (Tree.node .red (.node .black .nil 1 .nil) 2 (.node .black .nil 3 .nil)) 0
    (by decide) (by decide) (by decide) (by decide) (by decide) (by decide)

/-- C4 counterexample: inserting 1..7 in ascending order does NOT
produce the tree claimed by the spec (4 as black root, 2 and 6 as black
children, 1/3/5/7 as red leaves). -/
theorem insert_one_to_seven_not_spec_shape :
    ¬ (insertSeq [1, 2, 3, 4, 5, 6, 7] =
      Tree.node .black
        (.node .black (.node .red .nil 1 .nil) 2 (.node .red .nil 3 .nil)) 4
        (.node .black (.node .red .nil 5 .nil) 6 (.node .red .nil 7 .nil))) := by
  decide

/-- C4 amended: inserting 1..7 in ascending order produces the tree with
2 as black root, 1 as its black left child, 4 as its red right child with
black children 3 and 6, and red leaves 5 and 7; the tree is a valid
red-black tree of black height 2. -/
theorem insert_one_to_seven_shape :
    insertSeq [1, 2, 3, 4, 5, 6, 7] =
      Tree.node .black (.node .black .nil 1 .nil) 2
        (.node .red (.node .black .nil 3 .nil) 4
          (.node .black (.node .red .nil 5 .nil) 6 (.node .red .nil 7 .nil))) ∧
    validRB (insertSeq [1, 2, 3, 4, 5, 6, 7]) = true ∧
    blackH (insertSeq [1, 2, 3, 4, 5, 6, 7]) = some 2 := by
  refine ⟨by decide, by decide, by decide⟩

/-- Witness for C9: the word part at `p = 8` and the loop part at a
concrete Case 1 input (red uncle). -/
theorem rb_red_parent_loop_invariant_witness :
    (rb_red_parent_w (rb_set_parent_color_w 8 Color.red.toBit) = 8 ∧
      rb_color_w (rb_set_parent_color_w 8 Color.red.toBit) = 0) ∧
    isRedRoot (Tree.node .red .nil (0 : Nat) .nil) = true ∧
    isRedRoot (Tree.node .red
        (assemble { d := .left, c := .black, x := 1, sib := (.nil : Tree Nat) }
          (.node .red .nil 0 .nil)) 2 (.node .black .nil 3 .nil)) = true :=
  ⟨(rb_red_parent_loop_invariant (α := Nat)).1 8 ⟨2, rfl⟩,
   (rb_red_parent_loop_invariant (α := Nat)).2.1 0,
   (rb_red_parent_loop_invariant (α := Nat)).2.2
     (.node .red .nil 0 .nil) ⟨.left, .red, 1, .nil⟩
     ⟨.left, .black, 2, .node .red .nil 3 .nil⟩ _ rfl⟩

end RBTreeModel
